import Mathlib

/-!
# Verification of the n-gram aggregation engine in `hplt/sudachi.py`

This file is a shallow embedding, in Lean 4, of the bounded-memory n-gram
counting / merging / frequency-sorting / exporting pipeline implemented in
`src/hplt/sudachi.py`, together with proofs and refutations of the frozen
specification claims about it.

Modelling conventions:
* A line `gram \t count` of a chunk / aggregate / output file is modelled as a
  pair `(gram, count) : String × Nat`; a whole file is the list of its lines
  (serialisation of such a list to bytes is deterministic and injective, so
  equality of line lists models byte-identity of files).
* A Python string is modelled as its list of code points (`List Char`);
  Python compares strings lexicographically by code point, which is exactly
  the lexicographic `List Char` order (and coincides with the byte order of
  the UTF-8 encodings).
* `heapq.merge` / the explicit `heapq` loop of the frequency sorter pop, at
  each step, the minimal current head among the open iterators, breaking ties
  by iterator index.  This is modelled by `popBest` / `kMerge` below.
* `while` loops whose progress depends on configuration (the multi-pass merge)
  are modelled with an explicit bound (fuel) on the number of iterations;
  the fuel is proved sufficient whenever the loop terminates, and fuel
  exhaustion (`none`) models divergence.
* Python's in-memory `Counter` for one `n` is modelled by the list `acc` of
  gram occurrences counted since the last flush; `flush_counter_to_chunk`
  recovers exactly the `sorted(counter.items())` view of it.
-/

/-- An n-gram key: the `" ".join(...)` of a token window (`sudachi.py:392`),
as its list of code points. -/
abbrev Gram := List Char

/-- UTF-8 byte length of a string (`len(k.encode("utf-8"))`). -/
def utf8Len (g : Gram) : Nat := (g.map Char.utf8Size).sum

/-- One line `gram \t count` of a chunk / merged aggregate / output file. -/
abbrev Entry := Gram × Nat

/-- One line `count \t gram` of a frequency-sort intermediate chunk
(`sudachi.py:192`). -/
abbrev CEntry := Nat × Gram

/-- A chunk / aggregate / output file, as the list of its parsed lines. -/
abbrev Chunk := List Entry

/-- Total of the counts attached to key `g` in a list of lines. -/
def sumCounts (l : Chunk) (g : Gram) : Nat :=
  ((l.filter (fun e => decide (e.1 = g))).map Prod.snd).sum

/-- Sum of all counts in a list of lines. -/
def totalCount (l : Chunk) : Nat := (l.map Prod.snd).sum

/-- The keys of a list of lines, in order. -/
def keysOf (l : Chunk) : List Gram := l.map Prod.fst

/-- Number of occurrences of `g` in the occurrence list `acc` (the value
`counter[g]` of the in-memory `Counter`). -/
def countOcc (acc : List Gram) (g : Gram) : Nat :=
  (acc.filter (fun x => decide (x = g))).length

/-- `sorted(counter.keys())`: the distinct grams of the occurrence list `acc`,
in ascending string (code-point, equivalently UTF-8 byte) order. -/
def sortDedup (acc : List Gram) : List Gram :=
  List.insertionSort (· ≤ ·) acc.dedup

/-- `flush_counter_to_chunk` (`sudachi.py:91-97`): write the current counter
as a key-sorted chunk, one `gram \t count` line per distinct gram.  The
in-memory counter is represented by the list `acc` of counted occurrences, so
the count of `g` is `acc.count g`. -/
def flush_counter_to_chunk (acc : List Gram) : Chunk :=
  (sortDedup acc).map (fun g => (g, countOcc acc g))

/-- `estimate_counter_bytes` (`sudachi.py:85-89`): per entry, UTF-8 length of
the key, plus 1, plus the decimal length of the count, plus 1. -/
def estimate_counter_bytes (acc : List Gram) : Nat :=
  ((sortDedup acc).map
    (fun g => utf8Len g + 1 + (toString (countOcc acc g)).length + 1)).sum

/-! ## The k-way merge primitive

`heapq.merge(*iters, key=...)` (`sudachi.py:115`) and the explicit heap loop
of the frequency sorter (`sudachi.py:230-255`) both repeatedly pop, among the
current heads of the open sorted streams, the one minimal for the comparison
key, ties broken by the (stable) iterator index.  `popBest ltb streams` pops
that head (`ltb` is the strict comparison; on ties the earliest stream wins),
and `kMerge` iterates it to exhaustion. -/

/-- Pop the minimal current head among the streams (earliest stream wins
ties), returning it together with the remaining streams. -/
def popBest (ltb : α → α → Bool) : List (List α) → Option (α × List (List α))
  | [] => none
  | [] :: rest => (popBest ltb rest).map (fun p => (p.1, [] :: p.2))
  | (a :: t) :: rest =>
    match popBest ltb rest with
    | none => some (a, t :: rest)
    | some (b, rs) => if ltb b a then some (b, (a :: t) :: rs) else some (a, t :: rest)

/-- Fuelled k-way merge; `fuel` bounds the number of popped elements. -/
def kMergeF (ltb : α → α → Bool) : Nat → List (List α) → List α
  | 0, _ => []
  | fuel + 1, s =>
    match popBest ltb s with
    | none => []
    | some (a, r) => a :: kMergeF ltb fuel r

/-- K-way merge of the streams `s`: pops every element, smallest first. -/
def kMerge (ltb : α → α → Bool) (s : List (List α)) : List α :=
  kMergeF ltb s.flatten.length s

/-- Strict key comparison used by `heapq.merge(key=lambda x: x[0])`. -/
def keyLtb (a b : Entry) : Bool := decide (a.1 < b.1)

/-- Strict comparison of the heap items `(-count, gram)` of the frequency
sorter: count descending, then gram ascending. -/
def freqLtb (a b : CEntry) : Bool :=
  decide (b.1 < a.1) || (decide (a.1 = b.1) && decide (a.2 < b.2))

/-! ## Chunk merging (`merge_sorted_files`, `multi_pass_merge`) -/

/-- The running `cur_g / cur_sum` accumulation of `merge_sorted_files`
(`sudachi.py:117-128`): sum runs of consecutive equal keys, emitting one line
per run when the key changes (and at end of stream). -/
def groupSumGo (g : Gram) (c : Nat) : Chunk → Chunk
  | [] => [(g, c)]
  | e :: rest =>
    if e.1 = g then groupSumGo g (c + e.2) rest
    else (g, c) :: groupSumGo e.1 e.2 rest

/-- Group-and-sum consecutive equal keys of a merged stream. -/
def groupSum : Chunk → Chunk
  | [] => []
  | e :: rest => groupSumGo e.1 e.2 rest

/-- `merge_sorted_files` (`sudachi.py:99-134`) on already-parsed chunks:
k-way merge by key, then sum runs of equal keys. -/
def merge_sorted_files (chunks : List Chunk) : Chunk :=
  groupSum (kMerge keyLtb chunks)

/-- Split a line at its last tab (`ln.rsplit("\t", 1)`); `none` when the line
contains no tab, in which case the source's tuple unpacking raises. -/
def splitLastTab : List Char → Option (List Char × List Char)
  | [] => none
  | c :: rest =>
    match splitLastTab rest with
    | some p => some (c :: p.1, p.2)
    | none => if c = '\t' then some ([], rest) else none

/-- Decimal digit value of a character, if it is a digit. -/
def digitVal (c : Char) : Option Nat :=
  if '0' ≤ c ∧ c ≤ '9' then some (c.toNat - 48) else none

/-- Accumulate decimal digits; `none` on the first non-digit. -/
def parseNatGo (acc : Nat) : List Char → Option Nat
  | [] => some acc
  | c :: rest =>
    match digitVal c with
    | none => none
    | some d => parseNatGo (acc * 10 + d) rest

/-- Parse a non-empty all-digit string as a `Nat` (the form in which the
pipeline itself writes counts; Python's `int` is laxer about signs and
whitespace, which the pipeline never emits). -/
def parseNatDigits : List Char → Option Nat
  | [] => none
  | c :: rest => parseNatGo 0 (c :: rest)

/-- Parse one chunk line `gram \t count` (`sudachi.py:112-113`): split at the
last tab, then parse the count.  `none` models the `ValueError` raised by the
source on a malformed line. -/
def parseLine (s : List Char) : Option Entry :=
  match splitLastTab s with
  | none => none
  | some p => (parseNatDigits p.2).map (fun n => (p.1, n))

/-- The generator `gen` of `merge_sorted_files` (`sudachi.py:107-114`) applied
to one chunk file: blank lines are skipped; the first malformed line raises,
modelled as `Except.error` carrying that line. -/
def parseChunkLines : List (List Char) → Except (List Char) Chunk
  | [] => .ok []
  | ln :: rest =>
    if ln = [] then parseChunkLines rest
    else
      match parseLine ln with
      | none => .error ln
      | some e => (parseChunkLines rest).map (fun c => e :: c)

/-- `merge_sorted_files` at the line level: parse every chunk (the merge
drains every iterator, so every line is eventually parsed), then merge.  An
unparsable non-blank line anywhere aborts the whole merge with an error, as
the uncaught `ValueError` does in the source. -/
def merge_sorted_files_raw (chunksRaw : List (List (List Char))) :
    Except (List Char) Chunk := do
  let parsed ← chunksRaw.mapM parseChunkLines
  pure (merge_sorted_files parsed)

/-- Fuelled batching: `range(0, len(cur_list), m)` slices of size `m`
(`sudachi.py:144-145`). -/
def batchesF (m : Nat) : Nat → List α → List (List α)
  | 0, _ => []
  | _, [] => []
  | fuel + 1, a :: l => (a :: l.take (m - 1)) :: batchesF m fuel (l.drop (m - 1))

/-- Split a list into consecutive batches of at most `m` elements. -/
def batches (m : Nat) (l : List α) : List (List α) :=
  batchesF m l.length l

/-- The `while len(cur_list) > 1` loop of `multi_pass_merge`
(`sudachi.py:142-155`), with `fuel` bounding the number of passes: each pass
replaces the chunk list by the per-batch merges.  For a fan-in `m ≥ 2` the
initial chunk count is a sufficient bound (proved below); for `m ≤ 1` a pass
makes no progress and the source loops forever, modelled by fuel exhaustion
(`none`). -/
def multiPassLoop (m : Nat) : Nat → List Chunk → Option Chunk
  | _, [] => none
  | _, [c] => some c
  | 0, _ => none
  | fuel + 1, l => multiPassLoop m fuel ((batches m l).map merge_sorted_files)

/-- `multi_pass_merge` (`sudachi.py:136-156`) with fan-in `m`
(`MAX_OPEN_FILES`, 100 in the source): `none` for an empty chunk list
(`if not paths: return None`), otherwise the multi-pass merge. -/
def multi_pass_merge (m : Nat) (paths : List Chunk) : Option Chunk :=
  match paths with
  | [] => none
  | l => multiPassLoop m l.length l

/-! ## Frequency sorting (`external_sort_agg_by_count`) -/

/-- Byte length of one aggregate line `gram \t count` after `rstrip("\n")`,
as measured at `sudachi.py:185`. -/
def agg_line_bytes (g : Gram) (c : Nat) : Nat :=
  utf8Len g + 1 + (toString c).length

/-- The windowing loop of `external_sort_agg_by_count` (`sudachi.py:173-205`):
read the aggregate, buffering `(count, gram)` entries and a byte estimate
(line bytes + 8 each); close a window whenever the estimate reaches the limit;
flush the remaining buffer at end of input. -/
def sortWindowsGo (limit : Nat) (buf : List CEntry) (bufBytes : Nat) :
    List Entry → List (List CEntry)
  | [] => if buf.isEmpty then [] else [buf]
  | e :: rest =>
    let buf2 := buf ++ [(e.2, e.1)]
    let bytes2 := bufBytes + (agg_line_bytes e.1 e.2 + 8)
    if limit ≤ bytes2 then buf2 :: sortWindowsGo limit [] 0 rest
    else sortWindowsGo limit buf2 bytes2 rest

/-- The unsorted windows cut from the aggregate by the byte budget `limit`. -/
def sortWindows (limit : Nat) (agg : List Entry) : List (List CEntry) :=
  sortWindowsGo limit [] 0 agg

/-- The comparator `key=lambda x: (-x[0], x[1])` of the in-window sort
(`sudachi.py:188`): count descending, gram ascending. -/
def freqLe (a b : CEntry) : Prop := b.1 < a.1 ∨ (a.1 = b.1 ∧ a.2 ≤ b.2)

instance : DecidableRel freqLe := fun a b => by
  unfold freqLe; exact inferInstance

/-- The single-sort-chunk fast path (`sudachi.py:213-228`): rewrite each
`count \t gram` line as `gram \t count`, in order. -/
def singleChunkOut (w : List CEntry) : Chunk :=
  w.map (fun e => (e.2, e.1))

/-- The general k-way heap-merge path (`sudachi.py:230-255`): merge the sort
chunks by `(-count, gram)` (heap items `(-c, g, i)`), writing
`gram \t count` lines. -/
def kMergeOut (ws : List (List CEntry)) : Chunk :=
  (kMerge freqLtb ws).map (fun e => (e.2, e.1))

/-- `external_sort_agg_by_count` (`sudachi.py:161-272`): cut the aggregate
into windows, sort each window by (count desc, gram asc) (Python's stable
sort; the sort key is the whole entry, so any sorted rearrangement is the
same list), then: no window — the aggregate file itself (empty here) is
renamed to the output; one window — the fast path; otherwise the k-way heap
merge. -/
def external_sort_agg_by_count (limit : Nat) (agg : List Entry) : Chunk :=
  match (sortWindows limit agg).map (fun w => List.insertionSort freqLe w) with
  | [] => agg
  | [w] => singleChunkOut w
  | ws => kMergeOut ws

/-! ## Export (`export_sorted_to_outputs`) -/

/-- Byte length of one output line `gram \t count \n` (`sudachi.py:293-294`). -/
def out_line_bytes (e : Entry) : Nat :=
  utf8Len e.1 + 1 + (toString e.2).length + 1

/-- Total byte size of an output file. -/
def fileBytes (F : Chunk) : Nat := (F.map out_line_bytes).sum

/-- The streaming loop of `export_sorted_to_outputs` (`sudachi.py:284-311`).
State: `none` before any line passed the filter (no file open), or
`some (lines, bytes)` for the open file's contents and its `bytes_written`.
Entries below `minC` are dropped; a new file is opened lazily for the first
kept entry; the file is rotated when appending the next line would exceed
`target` and the current file already has content; the last open file is
closed and kept at end of input. -/
def exportGo (minC target : Nat) : Option (Chunk × Nat) → List Entry → List Chunk
  | none, [] => []
  | some st, [] => [st.1]
  | cur, e :: rest =>
    if e.2 < minC then exportGo minC target cur rest
    else
      match cur with
      | none => exportGo minC target (some ([e], out_line_bytes e)) rest
      | some (lines, bytes) =>
        if target < bytes + out_line_bytes e ∧ 0 < bytes then
          lines :: exportGo minC target (some ([e], out_line_bytes e)) rest
        else
          exportGo minC target (some (lines ++ [e], bytes + out_line_bytes e)) rest

/-- `export_sorted_to_outputs` (`sudachi.py:274-311`): the list of output
files (each the list of its lines) written for a frequency-sorted aggregate,
minimum count `minC` and target byte size `target`. -/
def export_sorted_to_outputs (minC target : Nat) (l : List Entry) : List Chunk :=
  exportGo minC target none l

/-! ## Counting phase (`process_inputs`, `sudachi.py:373-414`) -/

/-- All length-`n` contiguous windows of a token sequence, joined with a
space (`" ".join(surfaces[i:i+n])`, `sudachi.py:391-392`); `L - n + 1` grams
when `n ≤ L`, none otherwise. -/
def gramsOf (n : Nat) (r : List Gram) : List Gram :=
  (List.range (r.length + 1 - n)).map
    (fun i => List.intercalate [' '] ((r.drop i).take n))

/-- Processing of one record for one `n` (`sudachi.py:388-400`): when
`n ≤ len(surfaces)`, count the record's n-grams into the accumulator, then
flush to a chunk if the size estimate reaches the threshold. -/
def stepRecord (thr n : Nat) (st : List Chunk × List Gram) (r : List Gram) :
    List Chunk × List Gram :=
  if n ≤ r.length then
    let acc := st.2 ++ gramsOf n r
    if thr ≤ estimate_counter_bytes acc then
      (st.1 ++ [flush_counter_to_chunk acc], [])
    else (st.1, acc)
  else st

/-- The per-`n` counting loop over all records: chunks flushed so far and the
pending accumulator. -/
def countLoop (thr n : Nat) (recs : List (List Gram)) :
    List Chunk × List Gram :=
  recs.foldl (stepRecord thr n) ([], [])

/-- The chunk files produced for one `n` by the counting phase, including the
final flush (`sudachi.py:407-414`), which is performed exactly when the
remaining counter is non-empty (`if c:`). -/
def process_chunks (thr n : Nat) (recs : List (List Gram)) : List Chunk :=
  let st := countLoop thr n recs
  if st.2 = [] then st.1 else st.1 ++ [flush_counter_to_chunk st.2]

/-- Every counted occurrence: the concatenation of all records' n-grams. -/
def allGrams (n : Nat) (recs : List (List Gram)) : List Gram :=
  (recs.map (gramsOf n)).flatten

/-- The per-`n` tail of `process_inputs` (`sudachi.py:420-441`): count and
flush with threshold `thr`, multi-pass merge with fan-in `m` (skipping `n`
entirely when there are no chunks), frequency-sort with window budget
`limit`, export with `minC` and `target`. -/
def pipelineFiles (m thr limit minC target n : Nat)
    (recs : List (List Gram)) : List Chunk :=
  match multi_pass_merge m (process_chunks thr n recs) with
  | none => []
  | some agg => export_sorted_to_outputs minC target (external_sort_agg_by_count limit agg)

/-! ## Order relations used in the statements -/

/-- Non-strict key order on chunk lines. -/
def keyLE (a b : Entry) : Prop := a.1 ≤ b.1

/-- Strict key order on chunk lines. -/
def keyLT (a b : Entry) : Prop := a.1 < b.1

/-- The output order: count descending, key ascending on ties (non-strict). -/
def outLE (a b : Entry) : Prop := b.2 < a.2 ∨ (a.2 = b.2 ∧ a.1 ≤ b.1)

/-- The output order, strict on ties: count descending, key strictly
ascending on equal counts. -/
def outLT (a b : Entry) : Prop := b.2 < a.2 ∨ (a.2 = b.2 ∧ a.1 < b.1)

/-- Comparison key of a frequency-sorter entry, as a lexicographic pair
(count reversed, then gram): `freqLtb` / `freqLe` compare exactly by it. -/
def fFreq (e : CEntry) : Lex (OrderDual Nat × Gram) :=
  toLex (OrderDual.toDual e.1, e.2)

instance : DecidableRel keyLE := fun a b => by
  unfold keyLE; exact inferInstance

instance : DecidableRel keyLT := fun a b => by
  unfold keyLT; exact inferInstance

instance : DecidableRel outLE := fun a b => by
  unfold outLE; exact inferInstance

instance : DecidableRel outLT := fun a b => by
  unfold outLT; exact inferInstance

instance : IsTotal CEntry freqLe :=
  ⟨fun a b => by
    rw [freqLe, freqLe]
    rcases lt_trichotomy a.1 b.1 with h | h | h
    · exact Or.inr (Or.inl h)
    · rcases le_total a.2 b.2 with h2 | h2
      · exact Or.inl (Or.inr ⟨h, h2⟩)
      · exact Or.inr (Or.inr ⟨h.symm, h2⟩)
    · exact Or.inl (Or.inl h)⟩

instance : IsTrans CEntry freqLe :=
  ⟨fun a b c hab hbc => by
    rw [freqLe] at hab hbc ⊢
    rcases hab with h1 | ⟨h1, h1'⟩
    · rcases hbc with h2 | ⟨h2, h2'⟩
      · exact Or.inl (lt_trans h2 h1)
      · exact Or.inl (h2 ▸ h1)
    · rcases hbc with h2 | ⟨h2, h2'⟩
      · exact Or.inl (h1 ▸ h2)
      · exact Or.inr ⟨h1.trans h2, le_trans h1' h2'⟩⟩

instance : IsAntisymm Entry outLE :=
  ⟨by
    intro a b hab hba
    rw [outLE] at hab hba
    have hc : a.2 = b.2 := by omega
    have hk : a.1 = b.1 := by
      rcases hab with h | ⟨_, h1⟩
      · omega
      · rcases hba with h | ⟨_, h2⟩
        · omega
        · exact le_antisymm h1 h2
    exact Prod.ext hk hc⟩

/-- Rotation soundness relation between consecutive output files: the first
line of the next file would not have fit in the previous one. -/
def rotRel (target : Nat) (F G : Chunk) : Prop :=
  ∀ e ∈ G.head?, target < fileBytes F + out_line_bytes e

/-! ## Generic facts about the k-way merge -/

theorem popBest_eq_none {ltb : α → α → Bool} :
    ∀ {s : List (List α)}, popBest ltb s = none → s.flatten = []
  | [], _ => rfl
  | [] :: rest, h => by
    have : popBest ltb rest = none := by
      rcases hpb : popBest ltb rest with _ | p
      · rfl
      · simp [popBest, hpb] at h
    simpa using popBest_eq_none this
  | (a :: t) :: rest, h => by
    rcases hpb : popBest ltb rest with _ | ⟨b, rs⟩
    · simp [popBest, hpb] at h
    · simp only [popBest, hpb] at h
      split at h <;> simp_all

theorem popBest_perm {ltb : α → α → Bool} :
    ∀ {s : List (List α)} {a : α} {r : List (List α)},
      popBest ltb s = some (a, r) → s.flatten.Perm (a :: r.flatten)
  | [], _, _, h => by simp [popBest] at h
  | [] :: rest, a, r, h => by
    rcases hpb : popBest ltb rest with _ | ⟨b, rs⟩
    · simp [popBest, hpb] at h
    · simp only [popBest, hpb, Option.map_some'] at h
      cases h
      simpa using popBest_perm hpb
  | (a0 :: t) :: rest, a, r, h => by
    rcases hpb : popBest ltb rest with _ | ⟨b, rs⟩
    · simp only [popBest, hpb] at h
      cases h
      simp
    · simp only [popBest, hpb] at h
      split at h
      · cases h
        have ih := popBest_perm hpb
        have h1 : ((a0 :: t) ++ rest.flatten).Perm ((a0 :: t) ++ (a :: rs.flatten)) :=
          ih.append_left _
        have h2 : ((a0 :: t) ++ (a :: rs.flatten)).Perm (a :: ((a0 :: t) ++ rs.flatten)) :=
          @List.perm_middle _ a (a0 :: t) rs.flatten
        simpa using h1.trans h2
      · cases h
        simp

theorem popBest_rest_sorted {ltb : α → α → Bool} {q : α → α → Prop} :
    ∀ {s : List (List α)} {a : α} {r : List (List α)},
      (∀ l ∈ s, l.Sorted q) → popBest ltb s = some (a, r) → ∀ l ∈ r, l.Sorted q
  | [], _, _, _, h => by simp [popBest] at h
  | [] :: rest, a, r, hs, h => by
    rcases hpb : popBest ltb rest with _ | ⟨b, rs⟩
    · simp [popBest, hpb] at h
    · simp only [popBest, hpb, Option.map_some'] at h
      cases h
      intro l hl
      rcases List.mem_cons.mp hl with rfl | hl
      · exact List.sorted_nil
      · exact popBest_rest_sorted (fun l hl => hs l (List.mem_cons_of_mem _ hl)) hpb l hl
  | (a0 :: t) :: rest, a, r, hs, h => by
    have ht : t.Sorted q := (hs _ (List.mem_cons_self _ _)).of_cons
    have hrest : ∀ l ∈ rest, l.Sorted q := fun l hl => hs l (List.mem_cons_of_mem _ hl)
    rcases hpb : popBest ltb rest with _ | ⟨b, rs⟩
    · simp only [popBest, hpb] at h
      cases h
      intro l hl
      rcases List.mem_cons.mp hl with rfl | hl
      · exact ht
      · exact hrest l hl
    · simp only [popBest, hpb] at h
      split at h
      · cases h
        intro l hl
        rcases List.mem_cons.mp hl with rfl | hl
        · exact hs _ (List.mem_cons_self _ _)
        · exact popBest_rest_sorted hrest hpb l hl
      · cases h
        intro l hl
        rcases List.mem_cons.mp hl with rfl | hl
        · exact ht
        · exact hrest l hl

theorem popBest_min {ltb : α → α → Bool} {β : Type} [LinearOrder β] {f : α → β}
    (hltb : ∀ x y, ltb x y = true ↔ f x < f y) :
    ∀ {s : List (List α)} {a : α} {r : List (List α)},
      (∀ l ∈ s, l.Sorted (fun x y => f x ≤ f y)) →
      popBest ltb s = some (a, r) → ∀ x ∈ s.flatten, f a ≤ f x
  | [], _, _, _, h => by simp [popBest] at h
  | [] :: rest, a, r, hs, h => by
    rcases hpb : popBest ltb rest with _ | ⟨b, rs⟩
    · simp [popBest, hpb] at h
    · simp only [popBest, hpb, Option.map_some'] at h
      cases h
      intro x hx
      exact popBest_min hltb (fun l hl => hs l (List.mem_cons_of_mem _ hl)) hpb x
        (by simpa using hx)
  | (a0 :: t) :: rest, a, r, hs, h => by
    have hhead : ∀ x ∈ a0 :: t, f a0 ≤ f x := by
      intro x hx
      rcases List.mem_cons.mp hx with rfl | hx
      · exact le_refl _
      · exact List.rel_of_sorted_cons (hs _ (List.mem_cons_self _ _)) x hx
    have hrest : ∀ l ∈ rest, l.Sorted (fun x y => f x ≤ f y) :=
      fun l hl => hs l (List.mem_cons_of_mem _ hl)
    rcases hpb : popBest ltb rest with _ | ⟨b, rs⟩
    · simp only [popBest, hpb] at h
      have ha : a0 = a := congrArg Prod.fst (Option.some.inj h)
      subst ha
      intro x hx
      rw [List.flatten_cons] at hx
      rcases List.mem_append.mp hx with hx | hx
      · exact hhead x hx
      · rw [popBest_eq_none hpb] at hx
        exact absurd hx (List.not_mem_nil x)
    · have hbmin := popBest_min hltb hrest hpb
      simp only [popBest, hpb] at h
      split at h
      · rename_i hba
        have ha : b = a := congrArg Prod.fst (Option.some.inj h)
        subst ha
        have hba' : f b < f a0 := (hltb _ _).mp hba
        intro x hx
        rw [List.flatten_cons] at hx
        rcases List.mem_append.mp hx with hx | hx
        · exact le_of_lt (lt_of_lt_of_le hba' (hhead x hx))
        · exact hbmin x hx
      · rename_i hba
        have ha : a0 = a := congrArg Prod.fst (Option.some.inj h)
        subst ha
        have hba' : f a0 ≤ f b := by
          by_contra hcon
          exact hba ((hltb _ _).mpr (lt_of_not_le hcon))
        intro x hx
        rw [List.flatten_cons] at hx
        rcases List.mem_append.mp hx with hx | hx
        · exact hhead x hx
        · exact le_trans hba' (hbmin x hx)

theorem kMergeF_perm {ltb : α → α → Bool} :
    ∀ (fuel : Nat) (s : List (List α)), s.flatten.length ≤ fuel →
      (kMergeF ltb fuel s).Perm s.flatten
  | 0, s, h => by
    have : s.flatten = [] := List.eq_nil_of_length_eq_zero (Nat.le_zero.mp h)
    simp [kMergeF, this]
  | fuel + 1, s, h => by
    rcases hpb : popBest ltb s with _ | ⟨a, r⟩
    · simp [kMergeF, hpb, popBest_eq_none hpb]
    · have hperm := popBest_perm hpb
      have hlen : r.flatten.length ≤ fuel := by
        have := hperm.length_eq
        simp only [List.length_cons] at this
        omega
      have ih := @kMergeF_perm _ ltb fuel r hlen
      simp only [kMergeF, hpb]
      exact (ih.cons a).trans hperm.symm

theorem kMergeF_sorted {ltb : α → α → Bool} {β : Type} [LinearOrder β] {f : α → β}
    (hltb : ∀ x y, ltb x y = true ↔ f x < f y) :
    ∀ (fuel : Nat) (s : List (List α)), s.flatten.length ≤ fuel →
      (∀ l ∈ s, l.Sorted (fun x y => f x ≤ f y)) →
      (kMergeF ltb fuel s).Sorted (fun x y => f x ≤ f y)
  | 0, _, _, _ => by simp [kMergeF, List.sorted_nil]
  | fuel + 1, s, h, hs => by
    rcases hpb : popBest ltb s with _ | ⟨a, r⟩
    · simp [kMergeF, hpb, List.sorted_nil]
    · have hperm := popBest_perm hpb
      have hlen : r.flatten.length ≤ fuel := by
        have := hperm.length_eq
        simp only [List.length_cons] at this
        omega
      have hrs := popBest_rest_sorted hs hpb
      have ih := kMergeF_sorted hltb fuel r hlen hrs
      have hmin := popBest_min hltb hs hpb
      simp only [kMergeF, hpb]
      refine List.sorted_cons.mpr ⟨?_, ih⟩
      intro b hb
      have hbf : b ∈ r.flatten := ((kMergeF_perm fuel r hlen).mem_iff).mp hb
      exact hmin b (hperm.mem_iff.mpr (List.mem_cons_of_mem _ hbf))

theorem kMerge_perm {ltb : α → α → Bool} (s : List (List α)) :
    (kMerge ltb s).Perm s.flatten :=
  kMergeF_perm _ s le_rfl

theorem kMerge_sorted {ltb : α → α → Bool} {β : Type} [LinearOrder β] {f : α → β}
    (hltb : ∀ x y, ltb x y = true ↔ f x < f y) (s : List (List α))
    (hs : ∀ l ∈ s, l.Sorted (fun x y => f x ≤ f y)) :
    (kMerge ltb s).Sorted (fun x y => f x ≤ f y) :=
  kMergeF_sorted hltb _ s le_rfl hs

theorem kMergeF_single {ltb : α → α → Bool} :
    ∀ (fuel : Nat) (l : List α), l.length ≤ fuel → kMergeF ltb fuel [l] = l
  | 0, l, h => by
    have : l = [] := List.eq_nil_of_length_eq_zero (Nat.le_zero.mp h)
    simp [kMergeF, this]
  | _ + 1, [], _ => by simp [kMergeF, popBest]
  | fuel + 1, a :: t, h => by
    simp only [kMergeF, popBest]
    simp [kMergeF_single fuel t (by simpa using Nat.le_of_succ_le_succ h)]

theorem kMerge_single {ltb : α → α → Bool} (l : List α) : kMerge ltb [l] = l := by
  have : ([l] : List (List α)).flatten = l := by simp
  simpa [kMerge, this] using kMergeF_single l.length l le_rfl

/-! ## Count bookkeeping -/

theorem sumCounts_nil (g : Gram) : sumCounts [] g = 0 := rfl

theorem totalCount_nil : totalCount [] = 0 := rfl

theorem sumCounts_cons (e : Entry) (l : Chunk) (g : Gram) :
    sumCounts (e :: l) g = (if e.1 = g then e.2 else 0) + sumCounts l g := by
  by_cases h : e.1 = g <;> simp [sumCounts, h]

theorem sumCounts_append (l1 l2 : Chunk) (g : Gram) :
    sumCounts (l1 ++ l2) g = sumCounts l1 g + sumCounts l2 g := by
  simp [sumCounts, List.filter_append]

theorem sumCounts_perm {l1 l2 : Chunk} (h : l1.Perm l2) (g : Gram) :
    sumCounts l1 g = sumCounts l2 g :=
  ((h.filter _).map _).sum_eq

theorem sumCounts_eq_zero {l : Chunk} {g : Gram} (h : g ∉ keysOf l) :
    sumCounts l g = 0 := by
  induction l with
  | nil => rfl
  | cons e t ih =>
    have h1 : ¬ e.1 = g := fun hh => h (by simp [keysOf, hh.symm])
    have h2 : g ∉ keysOf t := fun hh => h (by simp [keysOf] at hh ⊢; exact .inr hh)
    rw [sumCounts_cons, if_neg h1, ih h2]

theorem mem_keysOf_of_sumCounts_pos {l : Chunk} {g : Gram}
    (h : 0 < sumCounts l g) : g ∈ keysOf l := by
  by_contra hcon
  rw [sumCounts_eq_zero hcon] at h
  exact Nat.lt_irrefl 0 h

theorem totalCount_append (l1 l2 : Chunk) :
    totalCount (l1 ++ l2) = totalCount l1 + totalCount l2 := by
  simp [totalCount]

theorem totalCount_perm {l1 l2 : Chunk} (h : l1.Perm l2) :
    totalCount l1 = totalCount l2 :=
  (h.map _).sum_eq

theorem keysOf_append (l1 l2 : Chunk) :
    keysOf (l1 ++ l2) = keysOf l1 ++ keysOf l2 := by
  simp [keysOf]

theorem mem_keysOf_perm {l1 l2 : Chunk} (h : l1.Perm l2) (g : Gram) :
    g ∈ keysOf l1 ↔ g ∈ keysOf l2 :=
  (h.map Prod.fst).mem_iff

/-! ## Facts about counter flushes -/

theorem sortDedup_perm (acc : List Gram) : (sortDedup acc).Perm acc.dedup :=
  List.perm_insertionSort _ _

theorem sortDedup_nodup (acc : List Gram) : (sortDedup acc).Nodup :=
  (sortDedup_perm acc).nodup_iff.mpr (List.nodup_dedup acc)

theorem mem_sortDedup {acc : List Gram} {g : Gram} :
    g ∈ sortDedup acc ↔ g ∈ acc := by
  rw [(sortDedup_perm acc).mem_iff, List.mem_dedup]

theorem sortDedup_sorted (acc : List Gram) :
    (sortDedup acc).Sorted (· ≤ ·) :=
  List.sorted_insertionSort _ _

theorem sortDedup_sorted_lt (acc : List Gram) :
    (sortDedup acc).Sorted (· < ·) :=
  (sortDedup_sorted acc).lt_of_le (sortDedup_nodup acc)

theorem sumCounts_map_keys {ks : List Gram} (hnd : ks.Nodup)
    (v : Gram → Nat) (g : Gram) :
    sumCounts (ks.map (fun k => (k, v k))) g = if g ∈ ks then v g else 0 := by
  induction ks with
  | nil => rfl
  | cons k t ih =>
    have hnd' : t.Nodup := hnd.of_cons
    rw [List.map_cons, sumCounts_cons, ih hnd']
    by_cases hk : k = g
    · subst hk
      have : k ∉ t := (List.nodup_cons.mp hnd).1
      simp [this]
    · have hgk : ¬ g = k := fun h => hk h.symm
      rw [if_neg hk, Nat.zero_add]
      by_cases hg : g ∈ t
      · rw [if_pos hg, if_pos (List.mem_cons.mpr (Or.inr hg))]
      · rw [if_neg hg, if_neg (fun hmem => (List.mem_cons.mp hmem).elim hgk hg)]

theorem countOcc_eq_zero {acc : List Gram} {g : Gram} (h : g ∉ acc) :
    countOcc acc g = 0 := by
  rw [countOcc, List.length_eq_zero, List.filter_eq_nil_iff]
  intro x hx hdec
  exact h ((of_decide_eq_true hdec) ▸ hx)

theorem countOcc_pos {acc : List Gram} {g : Gram} (h : g ∈ acc) :
    1 ≤ countOcc acc g := by
  rw [countOcc]
  have : g ∈ acc.filter (fun x => decide (x = g)) :=
    List.mem_filter.mpr ⟨h, by simp⟩
  exact List.length_pos.mpr (List.ne_nil_of_mem this)

theorem countOcc_eq_count (acc : List Gram) (g : Gram) :
    countOcc acc g = @List.count Gram instBEqOfDecidableEq g acc := by
  have h := List.countP_eq_length_filter (fun x => decide (x = g)) acc
  exact h.symm

theorem countOcc_append (acc1 acc2 : List Gram) (g : Gram) :
    countOcc (acc1 ++ acc2) g = countOcc acc1 g + countOcc acc2 g := by
  simp [countOcc, List.filter_append]

theorem countOcc_nil (g : Gram) : countOcc [] g = 0 := rfl

theorem sumCounts_flush (acc : List Gram) (g : Gram) :
    sumCounts (flush_counter_to_chunk acc) g = countOcc acc g := by
  rw [flush_counter_to_chunk, sumCounts_map_keys (sortDedup_nodup acc)]
  by_cases h : g ∈ acc
  · simp [mem_sortDedup, h]
  · simp [mem_sortDedup, h, countOcc_eq_zero h]

theorem totalCount_flush (acc : List Gram) :
    totalCount (flush_counter_to_chunk acc) = acc.length := by
  rw [totalCount, flush_counter_to_chunk, List.map_map]
  have h1 := ((sortDedup_perm acc).map (fun g => countOcc acc g)).sum_eq
  have h2 := List.sum_map_count_dedup_eq_length acc
  have h3 : (acc.dedup.map (fun g => countOcc acc g)).sum
      = (acc.dedup.map (fun x => @List.count Gram instBEqOfDecidableEq x acc)).sum := by
    apply congrArg
    exact List.map_congr_left (fun x _ => countOcc_eq_count acc x)
  simpa using (h1.trans h3).trans h2

theorem mem_keysOf_flush {acc : List Gram} {g : Gram} :
    g ∈ keysOf (flush_counter_to_chunk acc) ↔ g ∈ acc := by
  simp [keysOf, flush_counter_to_chunk, List.map_map, mem_sortDedup]

theorem flush_sorted (acc : List Gram) :
    (flush_counter_to_chunk acc).Sorted keyLT := by
  rw [flush_counter_to_chunk, List.Sorted, List.pairwise_map]
  exact (sortDedup_sorted_lt acc).imp (fun h => h)

theorem flush_count_pos (acc : List Gram) :
    ∀ e ∈ flush_counter_to_chunk acc, 1 ≤ e.2 := by
  intro e he
  rw [flush_counter_to_chunk, List.mem_map] at he
  obtain ⟨g, hg, rfl⟩ := he
  exact countOcc_pos (mem_sortDedup.mp hg)

theorem flush_ne_nil {acc : List Gram} (h : acc ≠ []) :
    flush_counter_to_chunk acc ≠ [] := by
  rcases acc with _ | ⟨a, t⟩
  · exact absurd rfl h
  · intro hcon
    have : a ∈ sortDedup (a :: t) := mem_sortDedup.mpr (List.mem_cons_self a t)
    rw [flush_counter_to_chunk] at hcon
    rcases List.map_eq_nil_iff.mp hcon with h2
    rw [h2] at this
    exact absurd this (List.not_mem_nil a)

theorem estimate_counter_bytes_nil : estimate_counter_bytes [] = 0 := rfl

/-! ## Facts about `groupSum` and `merge_sorted_files` -/

theorem groupSumGo_sumCounts (x : Gram) :
    ∀ (l : Chunk) (g : Gram) (c : Nat),
      sumCounts (groupSumGo g c l) x = sumCounts ((g, c) :: l) x
  | [], g, c => by simp [groupSumGo]
  | e :: rest, g, c => by
    by_cases he : e.1 = g
    · rw [groupSumGo, if_pos he, groupSumGo_sumCounts x rest g (c + e.2)]
      rw [sumCounts_cons, sumCounts_cons, sumCounts_cons]
      simp only [he]
      split_ifs <;> omega
    · rw [groupSumGo, if_neg he, sumCounts_cons, groupSumGo_sumCounts x rest e.1 e.2]
      rw [sumCounts_cons, sumCounts_cons, sumCounts_cons]

theorem groupSumGo_totalCount :
    ∀ (l : Chunk) (g : Gram) (c : Nat),
      totalCount (groupSumGo g c l) = c + totalCount l
  | [], g, c => by simp [groupSumGo, totalCount]
  | e :: rest, g, c => by
    by_cases he : e.1 = g
    · rw [groupSumGo, if_pos he, groupSumGo_totalCount rest g (c + e.2)]
      simp [totalCount]
      omega
    · rw [groupSumGo, if_neg he]
      have := groupSumGo_totalCount rest e.1 e.2
      simp only [totalCount, List.map_cons, List.sum_cons] at this ⊢
      omega

theorem groupSumGo_keys_mem (x : Gram) :
    ∀ (l : Chunk) (g : Gram) (c : Nat),
      (x ∈ keysOf (groupSumGo g c l) ↔ x ∈ keysOf ((g, c) :: l))
  | [], g, c => by simp [groupSumGo]
  | e :: rest, g, c => by
    by_cases he : e.1 = g
    · rw [groupSumGo, if_pos he, groupSumGo_keys_mem x rest g (c + e.2)]
      simp [keysOf, he]
    · rw [groupSumGo, if_neg he]
      simp only [keysOf, List.map_cons, List.mem_cons]
      rw [show (List.map Prod.fst (groupSumGo e.1 e.2 rest) : List Gram)
            = keysOf (groupSumGo e.1 e.2 rest) from rfl,
        groupSumGo_keys_mem x rest e.1 e.2]
      simp [keysOf]

theorem groupSumGo_sorted :
    ∀ (l : Chunk) (g : Gram) (c : Nat), ((g, c) :: l).Sorted keyLE →
      (groupSumGo g c l).Sorted keyLT
  | [], g, c, _ => List.sorted_singleton _
  | e :: rest, g, c, hs => by
    obtain ⟨hrel, hs'⟩ := List.sorted_cons.mp hs
    by_cases he : e.1 = g
    · rw [groupSumGo, if_pos he]
      refine groupSumGo_sorted rest g (c + e.2) (List.sorted_cons.mpr ⟨?_, hs'.of_cons⟩)
      intro y hy
      exact hrel y (List.mem_cons_of_mem _ hy)
    · rw [groupSumGo, if_neg he]
      have hge : (g : Gram) < e.1 := by
        have h1 : (g : Gram) ≤ e.1 := hrel e (List.mem_cons_self _ _)
        exact lt_of_le_of_ne h1 (fun hh => he hh.symm)
      refine List.sorted_cons.mpr ⟨?_, groupSumGo_sorted rest e.1 e.2 (by simpa using hs')⟩
      intro y hy
      have hyk : y.1 ∈ keysOf (groupSumGo e.1 e.2 rest) := List.mem_map_of_mem Prod.fst hy
      rw [groupSumGo_keys_mem] at hyk
      simp only [keysOf, List.map_cons, List.mem_cons] at hyk
      rcases hyk with hyk | hyk
      · show (g : Gram) < y.1
        rw [hyk]
        exact hge
      · show (g : Gram) < y.1
        have h2 : (e.1 : Gram) ≤ y.1 := by
          have hall := List.rel_of_sorted_cons hs'
          obtain ⟨z, hz, hzk⟩ := List.mem_map.mp hyk
          have h' : (e.1 : Gram) ≤ z.1 := hall z hz
          rwa [hzk] at h' 
        exact lt_of_lt_of_le hge h2

theorem groupSum_sumCounts (l : Chunk) (x : Gram) :
    sumCounts (groupSum l) x = sumCounts l x := by
  rcases l with _ | ⟨e, rest⟩
  · rfl
  · rw [groupSum, groupSumGo_sumCounts]

theorem groupSum_totalCount (l : Chunk) :
    totalCount (groupSum l) = totalCount l := by
  rcases l with _ | ⟨e, rest⟩
  · rfl
  · rw [groupSum, groupSumGo_totalCount]
    simp [totalCount]

theorem groupSum_keys_mem (l : Chunk) (x : Gram) :
    x ∈ keysOf (groupSum l) ↔ x ∈ keysOf l := by
  rcases l with _ | ⟨e, rest⟩
  · exact Iff.rfl
  · rw [groupSum, groupSumGo_keys_mem]

theorem groupSum_sorted {l : Chunk} (h : l.Sorted keyLE) :
    (groupSum l).Sorted keyLT := by
  rcases l with _ | ⟨e, rest⟩
  · exact List.sorted_nil
  · exact groupSumGo_sorted rest e.1 e.2 (by simpa using h)

theorem keyLtb_iff (a b : Entry) : keyLtb a b = true ↔ a.1 < b.1 := by
  simp [keyLtb]

theorem merge_sorted_files_sumCounts {chunks : List Chunk} (g : Gram) :
    sumCounts (merge_sorted_files chunks) g = sumCounts chunks.flatten g := by
  rw [merge_sorted_files, groupSum_sumCounts]
  exact sumCounts_perm (kMerge_perm chunks) g

theorem merge_sorted_files_totalCount (chunks : List Chunk) :
    totalCount (merge_sorted_files chunks) = totalCount chunks.flatten := by
  rw [merge_sorted_files, groupSum_totalCount]
  exact totalCount_perm (kMerge_perm chunks)

theorem merge_sorted_files_keys_mem (chunks : List Chunk) (g : Gram) :
    g ∈ keysOf (merge_sorted_files chunks) ↔ g ∈ keysOf chunks.flatten := by
  rw [merge_sorted_files, groupSum_keys_mem]
  exact mem_keysOf_perm (kMerge_perm chunks) g

theorem merge_sorted_files_sorted {chunks : List Chunk}
    (hs : ∀ c ∈ chunks, c.Sorted keyLE) :
    (merge_sorted_files chunks).Sorted keyLT := by
  rw [merge_sorted_files]
  refine groupSum_sorted ?_
  have h := kMerge_sorted (f := Prod.fst) keyLtb_iff chunks ?_
  · exact h.imp (fun hh => hh)
  · intro l hl
    exact (hs l hl).imp (fun hh => hh)

/-- Two strictly key-sorted aggregates with the same key set and the same
per-key totals are equal. -/
theorem agg_eq_of_sums :
    ∀ (l1 l2 : Chunk), l1.Sorted keyLT → l2.Sorted keyLT →
      (∀ g, g ∈ keysOf l1 ↔ g ∈ keysOf l2) →
      (∀ g, sumCounts l1 g = sumCounts l2 g) → l1 = l2
  | [], [], _, _, _, _ => rfl
  | [], e :: t, _, _, hmem, _ => by
    have : e.1 ∈ keysOf ([] : Chunk) := (hmem e.1).mpr (by simp [keysOf])
    simp [keysOf] at this
  | e :: t, [], _, _, hmem, _ => by
    have : e.1 ∈ keysOf ([] : Chunk) := (hmem e.1).mp (by simp [keysOf])
    simp [keysOf] at this
  | e1 :: t1, e2 :: t2, h1, h2, hmem, hsum => by
    obtain ⟨hrel1, ht1⟩ := List.sorted_cons.mp h1
    obtain ⟨hrel2, ht2⟩ := List.sorted_cons.mp h2
    have hnm1 : e1.1 ∉ keysOf t1 := by
      intro hin
      obtain ⟨z, hz, hzk⟩ := List.mem_map.mp hin
      have h' : e1.1 < z.1 := hrel1 z hz
      rw [hzk] at h'
      exact lt_irrefl _ h'
    have hnm2 : e2.1 ∉ keysOf t2 := by
      intro hin
      obtain ⟨z, hz, hzk⟩ := List.mem_map.mp hin
      have h' : e2.1 < z.1 := hrel2 z hz
      rw [hzk] at h'
      exact lt_irrefl _ h' 
    have hk12 : e1.1 = e2.1 := by
      have hm1 : e1.1 ∈ keysOf (e2 :: t2) := (hmem e1.1).mp (by simp [keysOf])
      have hm2 : e2.1 ∈ keysOf (e1 :: t1) := (hmem e2.1).mpr (by simp [keysOf])
      simp only [keysOf, List.map_cons, List.mem_cons] at hm1 hm2
      rcases hm1 with hm1 | hm1
      · exact hm1
      · rcases hm2 with hm2 | hm2
        · exact hm2.symm
        · obtain ⟨z1, hz1, hz1k⟩ := List.mem_map.mp hm1
          obtain ⟨z2, hz2, hz2k⟩ := List.mem_map.mp hm2
          have hl1 : e2.1 < e1.1 := by
            have h' : e2.1 < z1.1 := hrel2 z1 hz1
            rwa [hz1k] at h'
          have hl2 : e1.1 < e2.1 := by
            have h' : e1.1 < z2.1 := hrel1 z2 hz2
            rwa [hz2k] at h'
          exact absurd (lt_trans hl1 hl2) (lt_irrefl _)
    have hc12 : e1.2 = e2.2 := by
      have hv1 : sumCounts (e1 :: t1) e1.1 = e1.2 := by
        rw [sumCounts_cons, if_pos rfl, sumCounts_eq_zero hnm1]
        omega
      have hv2 : sumCounts (e2 :: t2) e1.1 = e2.2 := by
        have hnm2' : e1.1 ∉ keysOf t2 := by rw [hk12]; exact hnm2
        rw [sumCounts_cons, if_pos hk12.symm, sumCounts_eq_zero hnm2']
        omega
      rw [← hv1, ← hv2]
      exact hsum e1.1
    have htail : t1 = t2 := by
      refine agg_eq_of_sums t1 t2 ht1 ht2 ?_ ?_
      · intro g
        by_cases hg : g = e1.1
        · subst hg
          have hnm2' : e1.1 ∉ keysOf t2 := by rw [hk12]; exact hnm2
          simp [hnm1, hnm2']
        · have := hmem g
          simp only [keysOf, List.map_cons, List.mem_cons] at this
          constructor
          · intro hin
            rcases this.mp (Or.inr hin) with hh | hh
            · exact absurd (hk12 ▸ hh) hg
            · exact hh
          · intro hin
            rcases this.mpr (Or.inr hin) with hh | hh
            · exact absurd hh hg
            · exact hh
      · intro g
        by_cases hg : g = e1.1
        · subst hg
          have hnm2' : e1.1 ∉ keysOf t2 := by rw [hk12]; exact hnm2
          rw [sumCounts_eq_zero hnm1, sumCounts_eq_zero hnm2']
        · have := hsum g
          rw [sumCounts_cons, sumCounts_cons] at this
          have hne1 : ¬ e1.1 = g := fun hh => hg hh.symm
          have hne2 : ¬ e2.1 = g := fun hh => hg (by rw [← hk12] at hh; exact hh.symm)
          rw [if_neg hne1, if_neg hne2] at this
          omega
    have hhead : e1 = e2 := Prod.ext hk12 hc12
    rw [hhead, htail]

/-! ## Facts about batching and the multi-pass merge -/

theorem batchesF_flatten {m : Nat} :
    ∀ (fuel : Nat) (l : List α), l.length ≤ fuel → (batchesF m fuel l).flatten = l
  | 0, l, h => by
    have : l = [] := List.eq_nil_of_length_eq_zero (Nat.le_zero.mp h)
    simp [batchesF, this]
  | _ + 1, [], _ => by simp [batchesF]
  | fuel + 1, a :: l, h => by
    have hlen : (l.drop (m - 1)).length ≤ fuel := by
      rw [List.length_drop]
      simp only [List.length_cons] at h
      omega
    rw [batchesF, List.flatten_cons, batchesF_flatten fuel _ hlen]
    simp [List.take_append_drop]

theorem batches_flatten (m : Nat) (l : List α) : (batches m l).flatten = l :=
  batchesF_flatten l.length l le_rfl

theorem batches_ne_nil {m : Nat} {l : List α} (h : l ≠ []) : batches m l ≠ [] := by
  rcases l with _ | ⟨a, t⟩
  · exact absurd rfl h
  · simp [batches, batchesF]

theorem batchesF_length_le {m : Nat} :
    ∀ (fuel : Nat) (l : List α), l.length ≤ fuel →
      (batchesF m fuel l).length ≤ l.length
  | 0, l, _ => by simp [batchesF]
  | _ + 1, [], _ => by simp [batchesF]
  | fuel + 1, a :: l, h => by
    have hdl : (l.drop (m - 1)).length ≤ fuel := by
      rw [List.length_drop]
      simp only [List.length_cons] at h
      omega
    have hrec := @batchesF_length_le _ m fuel (l.drop (m - 1)) hdl
    rw [batchesF]
    simp only [List.length_cons]
    rw [List.length_drop] at hrec
    omega

theorem batches_length_lt {m : Nat} (hm : 2 ≤ m) {l : List α}
    (hl : 2 ≤ l.length) : (batches m l).length < l.length := by
  rcases l with _ | ⟨a, l1⟩
  · simp at hl
  rcases l1 with _ | ⟨b, t⟩
  · simp at hl
  have hred : batches m (a :: b :: t)
      = (a :: (b :: t).take (m - 1)) :: batchesF m (t.length + 1) ((b :: t).drop (m - 1)) := by
    rfl
  rw [hred]
  have hdl : ((b :: t).drop (m - 1)).length ≤ t.length + 1 := by
    rw [List.length_drop]
    simp only [List.length_cons]
    omega
  have hrec := @batchesF_length_le _ m (t.length + 1) ((b :: t).drop (m - 1)) hdl
  have hdl2 : ((b :: t).drop (m - 1)).length ≤ t.length := by
    rw [List.length_drop]
    simp only [List.length_cons]
    omega
  simp only [List.length_cons]
  omega

theorem mem_of_mem_batches {m : Nat} {l : List α} {b : List α} {c : α}
    (hb : b ∈ batches m l) (hc : c ∈ b) : c ∈ l := by
  rw [← batches_flatten m l]
  exact List.mem_flatten.mpr ⟨b, hb, hc⟩

theorem sumCounts_flatten_map_merge (g : Gram) :
    ∀ L : List (List Chunk),
      sumCounts ((L.map merge_sorted_files).flatten) g = sumCounts L.flatten.flatten g
  | [] => rfl
  | b :: L => by
    rw [List.map_cons, List.flatten_cons, sumCounts_append,
      merge_sorted_files_sumCounts, sumCounts_flatten_map_merge g L,
      List.flatten_cons, List.flatten_append, sumCounts_append]

theorem keys_flatten_map_merge (g : Gram) :
    ∀ L : List (List Chunk),
      (g ∈ keysOf ((L.map merge_sorted_files).flatten) ↔ g ∈ keysOf L.flatten.flatten)
  | [] => Iff.rfl
  | b :: L => by
    rw [List.map_cons, List.flatten_cons, keysOf_append, List.mem_append,
      List.flatten_cons, List.flatten_append, keysOf_append, List.mem_append]
    exact or_congr (merge_sorted_files_keys_mem b g) (keys_flatten_map_merge g L)

theorem totalCount_flatten_map_merge :
    ∀ L : List (List Chunk),
      totalCount ((L.map merge_sorted_files).flatten) = totalCount L.flatten.flatten
  | [] => rfl
  | b :: L => by
    rw [List.map_cons, List.flatten_cons, totalCount_append,
      merge_sorted_files_totalCount, totalCount_flatten_map_merge L,
      List.flatten_cons, List.flatten_append, totalCount_append]

theorem multiPassLoop_spec {m : Nat} (hm : 2 ≤ m) :
    ∀ (fuel : Nat) (cur : List Chunk), cur ≠ [] → cur.length ≤ fuel →
      (∀ c ∈ cur, c.Sorted keyLT) →
      ∃ agg, multiPassLoop m fuel cur = some agg ∧ agg.Sorted keyLT ∧
        (∀ g, sumCounts agg g = sumCounts cur.flatten g) ∧
        (∀ g, g ∈ keysOf agg ↔ g ∈ keysOf cur.flatten) ∧
        totalCount agg = totalCount cur.flatten
  | fuel, [], hne, _, _ => absurd rfl hne
  | fuel, [c], _, _, hs => by
    refine ⟨c, ?_, hs c (List.mem_cons_self _ _), ?_, ?_, ?_⟩ <;>
      simp [multiPassLoop]
  | 0, c1 :: c2 :: t, _, hfuel, _ => by
    simp at hfuel
  | fuel + 1, c1 :: c2 :: t, _, hfuel, hs => by
    have hred : multiPassLoop m (fuel + 1) (c1 :: c2 :: t)
        = multiPassLoop m fuel ((batches m (c1 :: c2 :: t)).map merge_sorted_files) := rfl
    set next := (batches m (c1 :: c2 :: t)).map merge_sorted_files with hnext
    have hne2 : next ≠ [] := by
      intro hcon
      exact batches_ne_nil (List.cons_ne_nil c1 (c2 :: t))
        (List.map_eq_nil_iff.mp hcon)
    have hlt : next.length < (c1 :: c2 :: t).length := by
      rw [hnext, List.length_map]
      exact batches_length_lt hm (by simp)
    have hlen2 : next.length ≤ fuel := by
      simp only [List.length_cons] at hfuel hlt
      omega
    have hs2 : ∀ c ∈ next, c.Sorted keyLT := by
      intro c hc
      rw [hnext] at hc
      obtain ⟨b, hb, rfl⟩ := List.mem_map.mp hc
      refine merge_sorted_files_sorted ?_
      intro ch hch
      exact (hs ch (mem_of_mem_batches hb hch)).imp (fun hh => le_of_lt hh)
    obtain ⟨agg, heq, hsort, hsum, hkeys, htot⟩ :=
      multiPassLoop_spec hm fuel next hne2 hlen2 hs2
    refine ⟨agg, by rw [hred, heq], hsort, ?_, ?_, ?_⟩
    · intro g
      rw [hsum g, hnext, sumCounts_flatten_map_merge g, batches_flatten]
    · intro g
      rw [hkeys g, hnext]
      have h2 := keys_flatten_map_merge g (batches m (c1 :: c2 :: t))
      rw [batches_flatten] at h2
      exact h2
    · rw [htot, hnext]
      have := totalCount_flatten_map_merge (batches m (c1 :: c2 :: t))
      rw [batches_flatten] at this
      exact this

theorem multi_pass_merge_spec {m : Nat} (hm : 2 ≤ m) {paths : List Chunk}
    (hne : paths ≠ []) (hs : ∀ c ∈ paths, c.Sorted keyLT) :
    ∃ agg, multi_pass_merge m paths = some agg ∧ agg.Sorted keyLT ∧
      (∀ g, sumCounts agg g = sumCounts paths.flatten g) ∧
      (∀ g, g ∈ keysOf agg ↔ g ∈ keysOf paths.flatten) ∧
      totalCount agg = totalCount paths.flatten := by
  have h := multiPassLoop_spec hm paths.length paths hne le_rfl hs
  rcases paths with _ | ⟨c, t⟩
  · exact absurd rfl hne
  · exact h

/-! ## Facts about the counting phase -/

theorem gramsOf_length (n : Nat) (r : List Gram) :
    (gramsOf n r).length = r.length + 1 - n := by
  simp [gramsOf]

theorem gramsOf_nil_of_lt {n : Nat} {r : List Gram} (h : r.length < n) :
    gramsOf n r = [] := by
  rw [gramsOf, Nat.sub_eq_zero_of_le (Nat.succ_le_of_lt h)]
  rfl

theorem allGrams_cons (n : Nat) (r : List Gram) (recs : List (List Gram)) :
    allGrams n (r :: recs) = gramsOf n r ++ allGrams n recs := by
  simp [allGrams]

theorem countOcc_pos_iff {acc : List Gram} {g : Gram} :
    1 ≤ countOcc acc g ↔ g ∈ acc := by
  constructor
  · intro h
    by_contra hcon
    rw [countOcc_eq_zero hcon] at h
    omega
  · exact countOcc_pos

theorem mem_keysOf_iff_pos :
    ∀ {l : Chunk}, (∀ e ∈ l, 1 ≤ e.2) → ∀ g : Gram,
      (g ∈ keysOf l ↔ 1 ≤ sumCounts l g)
  | [], _, g => by simp [keysOf, sumCounts]
  | e :: t, hpos, g => by
    rw [keysOf, List.map_cons, List.mem_cons, sumCounts_cons]
    have ht := mem_keysOf_iff_pos (fun x hx => hpos x (List.mem_cons_of_mem _ hx)) g
    constructor
    · intro h
      rcases h with h | h
      · rw [if_pos h.symm]
        have := hpos e (List.mem_cons_self _ _)
        omega
      · have := ht.mp (by rw [keysOf]; exact h)
        omega
    · intro h
      by_cases hk : e.1 = g
      · exact Or.inl hk.symm
      · rw [if_neg hk] at h
        exact Or.inr (ht.mpr (by omega))

/-- The per-record, per-`n` counting step preserves chunk well-formedness and
accounts exactly for the record's n-grams. -/
theorem stepRecord_spec (thr n : Nat) (hthr : 1 ≤ thr)
    (st : List Chunk × List Gram) (r : List Gram) :
    ((∀ c ∈ st.1, c.Sorted keyLT ∧ c ≠ [] ∧ ∀ e ∈ c, 1 ≤ e.2) →
      ∀ c ∈ (stepRecord thr n st r).1, c.Sorted keyLT ∧ c ≠ [] ∧ ∀ e ∈ c, 1 ≤ e.2) ∧
    (∀ g, sumCounts (stepRecord thr n st r).1.flatten g
        + countOcc (stepRecord thr n st r).2 g
      = sumCounts st.1.flatten g + countOcc st.2 g + countOcc (gramsOf n r) g) ∧
    (totalCount (stepRecord thr n st r).1.flatten
        + (stepRecord thr n st r).2.length
      = totalCount st.1.flatten + st.2.length + (gramsOf n r).length) := by
  rw [stepRecord]
  by_cases hn : n ≤ r.length
  · rw [if_pos hn]
    by_cases hf : thr ≤ estimate_counter_bytes (st.2 ++ gramsOf n r)
    · rw [if_pos hf]
      have hacc : st.2 ++ gramsOf n r ≠ [] := by
        intro hcon
        rw [hcon, estimate_counter_bytes_nil] at hf
        omega
      refine ⟨?_, ?_, ?_⟩
      · intro hw c hc
        rcases List.mem_append.mp hc with hc | hc
        · exact hw c hc
        · rcases List.mem_singleton.mp hc with rfl
          exact ⟨flush_sorted _, flush_ne_nil hacc, flush_count_pos _⟩
      · intro g
        rw [List.flatten_append, sumCounts_append]
        simp only [List.flatten_cons, List.flatten_nil, List.append_nil]
        rw [sumCounts_flush, countOcc_append, countOcc_nil]
        omega
      · rw [List.flatten_append]
        simp only [List.flatten_cons, List.flatten_nil, List.append_nil]
        rw [totalCount_append, totalCount_flush, List.length_append]
        simp
        omega
    · rw [if_neg hf]
      refine ⟨fun hw => hw, ?_, ?_⟩
      · intro g
        show sumCounts st.1.flatten g + countOcc (st.2 ++ gramsOf n r) g
            = sumCounts st.1.flatten g + countOcc st.2 g + countOcc (gramsOf n r) g
        rw [countOcc_append]
        omega
      · show totalCount st.1.flatten + (st.2 ++ gramsOf n r).length
            = totalCount st.1.flatten + st.2.length + (gramsOf n r).length
        rw [List.length_append]
        omega
  · rw [if_neg hn]
    have hnil : gramsOf n r = [] := gramsOf_nil_of_lt (by omega)
    rw [hnil]
    exact ⟨fun hw => hw, fun g => by rw [countOcc_nil, Nat.add_zero], by simp⟩

theorem countLoop_invariant (thr n : Nat) (hthr : 1 ≤ thr) :
    ∀ (recs : List (List Gram)) (st : List Chunk × List Gram),
      ((∀ c ∈ st.1, c.Sorted keyLT ∧ c ≠ [] ∧ ∀ e ∈ c, 1 ≤ e.2) →
        ∀ c ∈ (recs.foldl (stepRecord thr n) st).1,
          c.Sorted keyLT ∧ c ≠ [] ∧ ∀ e ∈ c, 1 ≤ e.2) ∧
      (∀ g, sumCounts (recs.foldl (stepRecord thr n) st).1.flatten g
          + countOcc (recs.foldl (stepRecord thr n) st).2 g
        = sumCounts st.1.flatten g + countOcc st.2 g + countOcc (allGrams n recs) g) ∧
      (totalCount (recs.foldl (stepRecord thr n) st).1.flatten
          + (recs.foldl (stepRecord thr n) st).2.length
        = totalCount st.1.flatten + st.2.length + (allGrams n recs).length)
  | [], st => by
    refine ⟨fun hw => hw, ?_, ?_⟩
    · intro g
      simp [allGrams, countOcc_nil]
    · simp [allGrams]
  | r :: recs, st => by
    rw [List.foldl_cons]
    obtain ⟨hw1, hsum1, htot1⟩ := stepRecord_spec thr n hthr st r
    obtain ⟨hw2, hsum2, htot2⟩ := countLoop_invariant thr n hthr recs (stepRecord thr n st r)
    refine ⟨fun hw => hw2 (hw1 hw), ?_, ?_⟩
    · intro g
      rw [allGrams_cons, countOcc_append, hsum2 g]
      have := hsum1 g
      omega
    · rw [allGrams_cons, List.length_append, htot2]
      omega

/-- Well-formedness and exactness of the chunk set written by the counting
phase (including the final flush). -/
theorem process_chunks_spec (thr n : Nat) (hthr : 1 ≤ thr)
    (recs : List (List Gram)) :
    (∀ c ∈ process_chunks thr n recs, c.Sorted keyLT ∧ c ≠ [] ∧ ∀ e ∈ c, 1 ≤ e.2) ∧
    (∀ g, sumCounts (process_chunks thr n recs).flatten g = countOcc (allGrams n recs) g) ∧
    totalCount (process_chunks thr n recs).flatten = (allGrams n recs).length := by
  obtain ⟨hw, hsum, htot⟩ := countLoop_invariant thr n hthr recs ([], [])
  have hcl : recs.foldl (stepRecord thr n) ([], []) = countLoop thr n recs := rfl
  rw [hcl] at hw hsum htot
  have hw' : ∀ c ∈ (countLoop thr n recs).1, c.Sorted keyLT ∧ c ≠ [] ∧ ∀ e ∈ c, 1 ≤ e.2 :=
    hw (by intro c hc; exact absurd hc (List.not_mem_nil c))
  have hsum' : ∀ g, sumCounts (countLoop thr n recs).1.flatten g
      + countOcc (countLoop thr n recs).2 g = countOcc (allGrams n recs) g := by
    intro g
    have h1 := hsum g
    simpa [sumCounts_nil, countOcc_nil] using h1
  have htot' : totalCount (countLoop thr n recs).1.flatten
      + (countLoop thr n recs).2.length = (allGrams n recs).length := by
    simpa [totalCount_nil] using htot
  simp only [process_chunks]
  rcases hacc : (countLoop thr n recs).2 with _ | ⟨a, t⟩
  · rw [hacc] at hsum' htot'
    rw [if_pos rfl]
    refine ⟨hw', ?_, ?_⟩
    · intro g
      have := hsum' g
      rw [countOcc_nil] at this
      omega
    · have := htot'
      simp only [List.length_nil] at this
      omega
  · rw [hacc] at hsum' htot'
    rw [if_neg (by simp)]
    have hne : (a :: t : List Gram) ≠ [] := by simp
    refine ⟨?_, ?_, ?_⟩
    · intro c hc
      rcases List.mem_append.mp hc with hc | hc
      · exact hw' c hc
      · rcases List.mem_singleton.mp hc with rfl
        exact ⟨flush_sorted _, flush_ne_nil hne, flush_count_pos _⟩
    · intro g
      rw [List.flatten_append, sumCounts_append]
      simp only [List.flatten_cons, List.flatten_nil, List.append_nil]
      rw [sumCounts_flush]
      exact hsum' g
    · rw [List.flatten_append, totalCount_append]
      simp only [List.flatten_cons, List.flatten_nil, List.append_nil]
      rw [totalCount_flush]
      simpa using htot'

theorem process_chunks_eq_nil_iff {thr n : Nat} (hthr : 1 ≤ thr)
    (recs : List (List Gram)) :
    process_chunks thr n recs = [] ↔ allGrams n recs = [] := by
  obtain ⟨hw, hsum, htot⟩ := process_chunks_spec thr n hthr recs
  constructor
  · intro h
    rw [h] at hsum
    refine List.eq_nil_iff_forall_not_mem.mpr (fun g hg => ?_)
    have h0 := hsum g
    rw [show (([] : List Chunk).flatten) = ([] : Chunk) from rfl, sumCounts_nil] at h0
    have h1 := countOcc_pos hg
    omega
  · intro h
    rcases hc : process_chunks thr n recs with _ | ⟨c, cs⟩
    · rfl
    · exfalso
      rw [hc] at hw htot
      rw [h] at htot
      simp only [List.length_nil] at htot
      obtain ⟨hsort, hcne, hpos⟩ := hw c (List.mem_cons_self _ _)
      rcases c with _ | ⟨e, es⟩
      · exact hcne rfl
      · have h1 : 1 ≤ e.2 := hpos e (List.mem_cons_self _ _)
        rw [List.flatten_cons, totalCount_append] at htot
        have h2 : totalCount (e :: es) = e.2 + totalCount es := by
          simp [totalCount]
        omega

/-- Characterisation of the merged aggregate produced for one `n`: it exists
whenever there are chunks, is strictly key-sorted, and carries exactly the
occurrence counts of the corpus n-grams. -/
theorem merged_aggregate_spec {m thr n : Nat} (hm : 2 ≤ m) (hthr : 1 ≤ thr)
    (recs : List (List Gram)) (hne : process_chunks thr n recs ≠ []) :
    ∃ agg, multi_pass_merge m (process_chunks thr n recs) = some agg ∧
      agg.Sorted keyLT ∧
      (∀ g, sumCounts agg g = countOcc (allGrams n recs) g) ∧
      (∀ g, g ∈ keysOf agg ↔ g ∈ allGrams n recs) ∧
      totalCount agg = (allGrams n recs).length := by
  obtain ⟨hw, hsum, htot⟩ := process_chunks_spec thr n hthr recs
  obtain ⟨agg, heq, hsort, hs2, hk2, ht2⟩ :=
    multi_pass_merge_spec hm hne (fun c hc => (hw c hc).1)
  refine ⟨agg, heq, hsort, ?_, ?_, ?_⟩
  · intro g
    rw [hs2 g, hsum g]
  · intro g
    rw [hk2 g]
    have hpos : ∀ e ∈ (process_chunks thr n recs).flatten, 1 ≤ e.2 := by
      intro e he
      obtain ⟨c, hc, hec⟩ := List.mem_flatten.mp he
      exact (hw c hc).2.2 e hec
    rw [mem_keysOf_iff_pos hpos g, hsum g, countOcc_pos_iff]
  · rw [ht2, htot]

/-! ## Facts about the frequency sorter -/

theorem freqLe_iff (a b : CEntry) : freqLe a b ↔ fFreq a ≤ fFreq b := by
  rw [freqLe, fFreq, fFreq, Prod.Lex.le_iff]
  simp

theorem freqLtb_iff (a b : CEntry) : freqLtb a b = true ↔ fFreq a < fFreq b := by
  rw [fFreq, fFreq, Prod.Lex.lt_iff]
  simp [freqLtb]

theorem sorted_freqLe_iff_f (w : List CEntry) :
    w.Sorted freqLe ↔ w.Sorted (fun x y => fFreq x ≤ fFreq y) :=
  ⟨fun h => h.imp (fun hh => (freqLe_iff _ _).mp hh),
   fun h => h.imp (fun hh => (freqLe_iff _ _).mpr hh)⟩

theorem sortWindowsGo_flatten (limit : Nat) :
    ∀ (l : List Entry) (buf : List CEntry) (bytes : Nat),
      (sortWindowsGo limit buf bytes l).flatten = buf ++ l.map (fun e => (e.2, e.1))
  | [], buf, bytes => by
    by_cases hb : buf.isEmpty
    · rw [sortWindowsGo, if_pos hb]
      simp [List.isEmpty_iff.mp hb]
    · rw [sortWindowsGo, if_neg hb]
      simp
  | e :: rest, buf, bytes => by
    simp only [sortWindowsGo]
    by_cases hf : limit ≤ bytes + (agg_line_bytes e.1 e.2 + 8)
    · rw [if_pos hf, List.flatten_cons, sortWindowsGo_flatten limit rest [] 0]
      simp
    · rw [if_neg hf, sortWindowsGo_flatten limit rest _ _]
      simp

theorem sortWindows_flatten (limit : Nat) (agg : List Entry) :
    (sortWindows limit agg).flatten = agg.map (fun e => (e.2, e.1)) := by
  rw [sortWindows, sortWindowsGo_flatten]
  rfl

theorem flatten_map_insertionSort_perm :
    ∀ L : List (List CEntry),
      ((L.map (fun w => List.insertionSort freqLe w)).flatten).Perm L.flatten
  | [] => List.Perm.refl _
  | w :: L => by
    rw [List.map_cons, List.flatten_cons, List.flatten_cons]
    exact (List.perm_insertionSort freqLe w).append (flatten_map_insertionSort_perm L)

theorem sorted_outLE_map {w : List CEntry} (h : w.Sorted freqLe) :
    (w.map (fun e => (e.2, e.1))).Sorted outLE := by
  rw [List.Sorted, List.pairwise_map]
  exact h.imp (fun hh => hh)

theorem map_swap_swap (agg : List Entry) :
    (agg.map (fun e => (e.2, e.1))).map (fun e : CEntry => (e.2, e.1)) = agg := by
  rw [List.map_map]
  have h : ((fun e : CEntry => (e.2, e.1)) ∘ (fun e : Entry => (e.2, e.1))) = id := by
    funext e
    rfl
  rw [h, List.map_id]

/-- The frequency sorter's output is a permutation of the aggregate, ordered
by (count descending, key ascending). -/
theorem external_sort_spec (limit : Nat) (agg : List Entry) :
    (external_sort_agg_by_count limit agg).Perm agg ∧
      (external_sort_agg_by_count limit agg).Sorted outLE := by
  have hflat := sortWindows_flatten limit agg
  rcases hws : (sortWindows limit agg).map (fun w => List.insertionSort freqLe w)
    with _ | ⟨w, _ | ⟨w2, ws'⟩⟩
  · have h0 : sortWindows limit agg = [] := List.map_eq_nil_iff.mp hws
    have h1 : agg = [] := by
      rw [h0] at hflat
      exact List.map_eq_nil_iff.mp hflat.symm
    rw [external_sort_agg_by_count, hws, h1]
    exact ⟨List.Perm.refl _, List.sorted_nil⟩
  · rcases h0 : sortWindows limit agg with _ | ⟨w0, ws0⟩
    · rw [h0] at hws
      simp at hws
    · rw [h0] at hws
      simp only [List.map_cons, List.cons.injEq] at hws
      obtain ⟨hw0, hws0⟩ := hws
      have hws0' : ws0 = [] := List.map_eq_nil_iff.mp hws0
      rw [h0, hws0'] at hflat
      simp only [List.flatten_cons, List.flatten_nil, List.append_nil] at hflat
      have hwperm : w.Perm (agg.map (fun e => (e.2, e.1))) := by
        rw [← hw0, ← hflat]
        exact List.perm_insertionSort freqLe w0
      have hwsorted : w.Sorted freqLe := by
        rw [← hw0]
        exact List.sorted_insertionSort freqLe w0
      have hred : external_sort_agg_by_count limit agg = singleChunkOut w := by
        rw [external_sort_agg_by_count]
        rw [show (sortWindows limit agg).map (fun w => List.insertionSort freqLe w)
              = [w] from by rw [h0, hws0']; simp [hw0]]
      rw [hred, singleChunkOut]
      constructor
      · have := hwperm.map (fun e : CEntry => (e.2, e.1))
        rw [map_swap_swap] at this
        exact this
      · exact sorted_outLE_map hwsorted
  · have hsorted : ∀ l ∈ (sortWindows limit agg).map (fun w => List.insertionSort freqLe w),
        l.Sorted (fun x y => fFreq x ≤ fFreq y) := by
      intro l hl
      obtain ⟨w0, _, rfl⟩ := List.mem_map.mp hl
      exact (sorted_freqLe_iff_f _).mp (List.sorted_insertionSort freqLe w0)
    have hkperm : (kMerge freqLtb
          ((sortWindows limit agg).map (fun w => List.insertionSort freqLe w))).Perm
        (agg.map (fun e => (e.2, e.1))) := by
      refine (kMerge_perm _).trans ?_
      refine (flatten_map_insertionSort_perm _).trans ?_
      rw [hflat]
    have hksorted := kMerge_sorted (f := fFreq) freqLtb_iff
      ((sortWindows limit agg).map (fun w => List.insertionSort freqLe w)) hsorted
    have hred : external_sort_agg_by_count limit agg = kMergeOut
        ((sortWindows limit agg).map (fun w => List.insertionSort freqLe w)) := by
      rw [external_sort_agg_by_count, hws]
    rw [hred, kMergeOut]
    constructor
    · have := hkperm.map (fun e : CEntry => (e.2, e.1))
      rw [map_swap_swap] at this
      exact this
    · exact sorted_outLE_map ((sorted_freqLe_iff_f _).mpr hksorted)

/-- The frequency sorter's result does not depend on the window byte budget. -/
theorem external_sort_window_invariant (l1 l2 : Nat) (agg : List Entry) :
    external_sort_agg_by_count l1 agg = external_sort_agg_by_count l2 agg := by
  obtain ⟨hp1, hs1⟩ := external_sort_spec l1 agg
  obtain ⟨hp2, hs2⟩ := external_sort_spec l2 agg
  exact List.eq_of_perm_of_sorted (hp1.trans hp2.symm) hs1 hs2

theorem kMergeOut_single (w : List CEntry) : kMergeOut [w] = singleChunkOut w := by
  rw [kMergeOut, kMerge_single, singleChunkOut]

/-! ## Facts about the exporter -/

theorem fileBytes_nil : fileBytes [] = 0 := rfl

theorem fileBytes_append (F G : Chunk) :
    fileBytes (F ++ G) = fileBytes F + fileBytes G := by
  simp [fileBytes]

theorem fileBytes_singleton (e : Entry) : fileBytes [e] = out_line_bytes e := by
  simp [fileBytes]

theorem out_line_bytes_pos (e : Entry) : 1 ≤ out_line_bytes e := by
  rw [out_line_bytes]
  omega

theorem fileBytes_pos {F : Chunk} (h : F ≠ []) : 1 ≤ fileBytes F := by
  rcases F with _ | ⟨e, t⟩
  · exact absurd rfl h
  · have h1 := out_line_bytes_pos e
    simp only [fileBytes, List.map_cons, List.sum_cons]
    omega

theorem exportGo_some_spec (minC target : Nat) :
    ∀ (l : List Entry) (lines : Chunk) (bytes : Nat),
      lines ≠ [] → bytes = fileBytes lines → fileBytes lines.dropLast ≤ target →
      ∃ F rest, exportGo minC target (some (lines, bytes)) l = F :: rest ∧
        (∃ ext, F = lines ++ ext) ∧
        (∀ G ∈ F :: rest, G ≠ [] ∧ fileBytes G.dropLast ≤ target) ∧
        (F :: rest).flatten = lines ++ l.filter (fun e => decide (minC ≤ e.2)) ∧
        List.Chain' (rotRel target) (F :: rest)
  | [], lines, bytes, hne, _, hdrop => by
    refine ⟨lines, [], rfl, ⟨[], by simp⟩, ?_, by simp, List.chain'_singleton _⟩
    intro G hG
    rcases List.mem_singleton.mp hG with rfl
    exact ⟨hne, hdrop⟩
  | e :: rest0, lines, bytes, hne, hbytes, hdrop => by
    by_cases hskip : e.2 < minC
    · have hred : exportGo minC target (some (lines, bytes)) (e :: rest0)
          = exportGo minC target (some (lines, bytes)) rest0 := by
        rw [exportGo, if_pos hskip]
      obtain ⟨F, rest, heq, hext, hwf, hflat, hchain⟩ :=
        exportGo_some_spec minC target rest0 lines bytes hne hbytes hdrop
      refine ⟨F, rest, by rw [hred, heq], hext, hwf, ?_, hchain⟩
      rw [hflat, List.filter_cons, if_neg (by simpa using by omega)]
    · have hkeepb : decide (minC ≤ e.2) = true := by
        simp only [decide_eq_true_eq]
        omega
      by_cases hrot : target < bytes + out_line_bytes e ∧ 0 < bytes
      · have hred : exportGo minC target (some (lines, bytes)) (e :: rest0)
            = lines :: exportGo minC target (some ([e], out_line_bytes e)) rest0 := by
          rw [exportGo, if_neg hskip, if_pos hrot]
        obtain ⟨F, rest, heq, hext, hwf, hflat, hchain⟩ :=
          exportGo_some_spec minC target rest0 [e] (out_line_bytes e)
            (by simp) (fileBytes_singleton e).symm
            (by simp [fileBytes_nil])
        refine ⟨lines, F :: rest, by rw [hred, heq], ⟨[], by simp⟩, ?_, ?_, ?_⟩
        · intro G hG
          rcases List.mem_cons.mp hG with rfl | hG
          · exact ⟨hne, hdrop⟩
          · exact hwf G hG
        · rw [List.flatten_cons, hflat, List.filter_cons, if_pos hkeepb]
          simp
        · rw [List.chain'_cons]
          refine ⟨?_, hchain⟩
          intro x hx
          obtain ⟨ext, hFe⟩ := hext
          rw [hFe] at hx
          simp only [List.head?_cons, Option.mem_def, List.cons_append,
            Option.some.injEq] at hx
          rw [← hx, ← hbytes]
          exact hrot.1
      · have hpos : 0 < bytes := by
          rw [hbytes]
          exact fileBytes_pos hne
        have hfit : bytes + out_line_bytes e ≤ target := by
          rcases Nat.lt_or_ge target (bytes + out_line_bytes e) with h | h
          · exact absurd ⟨h, hpos⟩ hrot
          · exact h
        have hred : exportGo minC target (some (lines, bytes)) (e :: rest0)
            = exportGo minC target
                (some (lines ++ [e], bytes + out_line_bytes e)) rest0 := by
          rw [exportGo, if_neg hskip, if_neg hrot]
        obtain ⟨F, rest, heq, hext, hwf, hflat, hchain⟩ :=
          exportGo_some_spec minC target rest0 (lines ++ [e]) (bytes + out_line_bytes e)
            (by simp)
            (by rw [fileBytes_append, fileBytes_singleton, hbytes])
            (by
              rw [List.dropLast_concat, ← hbytes]
              omega)
        refine ⟨F, rest, by rw [hred, heq], ?_, hwf, ?_, hchain⟩
        · obtain ⟨ext, hFe⟩ := hext
          exact ⟨e :: ext, by rw [hFe, List.append_assoc]; rfl⟩
        · rw [hflat, List.filter_cons, if_pos hkeepb, List.append_assoc]
          rfl

theorem exportGo_none_spec (minC target : Nat) :
    ∀ l : List Entry,
      (∀ G ∈ exportGo minC target none l, G ≠ [] ∧ fileBytes G.dropLast ≤ target) ∧
      (exportGo minC target none l).flatten = l.filter (fun e => decide (minC ≤ e.2)) ∧
      List.Chain' (rotRel target) (exportGo minC target none l)
  | [] => ⟨fun G hG => absurd hG (List.not_mem_nil G), rfl, List.chain'_nil⟩
  | e :: rest0 => by
    by_cases hskip : e.2 < minC
    · have hred : exportGo minC target none (e :: rest0)
          = exportGo minC target none rest0 := by
        rw [exportGo, if_pos hskip]
      obtain ⟨hwf, hflat, hchain⟩ := exportGo_none_spec minC target rest0
      refine ⟨by rw [hred]; exact hwf, ?_, by rw [hred]; exact hchain⟩
      rw [hred, hflat, List.filter_cons, if_neg (by simpa using by omega)]
    · have hkeepb : decide (minC ≤ e.2) = true := by
        simp only [decide_eq_true_eq]
        omega
      have hred : exportGo minC target none (e :: rest0)
          = exportGo minC target (some ([e], out_line_bytes e)) rest0 := by
        rw [exportGo, if_neg hskip]
      obtain ⟨F, rest, heq, hext, hwf, hflat, hchain⟩ :=
        exportGo_some_spec minC target rest0 [e] (out_line_bytes e)
          (by simp) (fileBytes_singleton e).symm (by simp [fileBytes_nil])
      refine ⟨?_, ?_, ?_⟩
      · rw [hred, heq]
        exact hwf
      · rw [hred, heq, hflat, List.filter_cons, if_pos hkeepb]
        simp
      · rw [hred, heq]
        exact hchain

theorem exportGo_none_all_below (minC target : Nat) :
    ∀ l : List Entry, (∀ e ∈ l, e.2 < minC) →
      exportGo minC target none l = []
  | [], _ => rfl
  | e :: rest0, h => by
    rw [exportGo, if_pos (h e (List.mem_cons_self _ _))]
    exact exportGo_none_all_below minC target rest0
      (fun x hx => h x (List.mem_cons_of_mem _ hx))

/-! ## Facts about the line-level merge -/

theorem allGrams_length (n : Nat) (recs : List (List Gram)) :
    (allGrams n recs).length = (recs.map (fun r => r.length + 1 - n)).sum := by
  rw [allGrams, List.length_flatten, List.map_map]
  congr 1
  exact List.map_congr_left (fun r _ => gramsOf_length n r)

theorem parseLine_nil : parseLine [] = none := rfl

theorem parseChunkLines_error :
    ∀ {ch : List (List Char)}, (∃ ln ∈ ch, ¬ ln = [] ∧ parseLine ln = none) →
      ∃ msg, parseChunkLines ch = Except.error msg
  | [], h => by simp at h
  | ln :: rest, h => by
    rcases h with ⟨x, hx, hxne, hxp⟩
    rcases List.mem_cons.mp hx with rfl | hx
    · rw [parseChunkLines, if_neg hxne]
      rw [hxp]
      exact ⟨x, rfl⟩
    · rw [parseChunkLines]
      by_cases hnil : ln = []
      · rw [if_pos hnil]
        exact parseChunkLines_error ⟨x, hx, hxne, hxp⟩
      · rw [if_neg hnil]
        rcases hpl : parseLine ln with _ | e
        · exact ⟨ln, rfl⟩
        · obtain ⟨msg, hmsg⟩ := parseChunkLines_error ⟨x, hx, hxne, hxp⟩
          rw [hmsg]
          exact ⟨msg, rfl⟩

theorem parseChunkLines_ok :
    ∀ {ch : List (List Char)}, (∀ ln ∈ ch, ¬ ln = [] → (parseLine ln).isSome) →
      parseChunkLines ch = Except.ok (ch.filterMap parseLine)
  | [], _ => rfl
  | ln :: rest, h => by
    by_cases hnil : ln = []
    · subst hnil
      rw [parseChunkLines, if_pos rfl,
        parseChunkLines_ok (fun x hx hxne => h x (List.mem_cons_of_mem _ hx) hxne)]
      rw [List.filterMap_cons, parseLine_nil]
    · rw [parseChunkLines, if_neg hnil]
      have hs := h ln (List.mem_cons_self _ _) hnil
      rcases hpl : parseLine ln with _ | e
      · rw [hpl] at hs
        simp at hs
      · rw [parseChunkLines_ok (fun x hx hxne => h x (List.mem_cons_of_mem _ hx) hxne)]
        rw [List.filterMap_cons, hpl]
        rfl

theorem mapM_parse_error {f : List (List Char) → Except (List Char) Chunk} :
    ∀ {L : List (List (List Char))} {ch : List (List Char)}, ch ∈ L →
      (∃ msg, f ch = Except.error msg) → ∃ msg, L.mapM f = Except.error msg
  | [], _, hmem, _ => absurd hmem (List.not_mem_nil _)
  | a :: L, ch, hmem, herr => by
    rw [List.mapM_cons]
    rcases List.mem_cons.mp hmem with rfl | hmem
    · obtain ⟨msg, hmsg⟩ := herr
      rw [hmsg]
      exact ⟨msg, rfl⟩
    · rcases hfa : f a with e | b
      · exact ⟨e, rfl⟩
      · obtain ⟨msg, hmsg⟩ := mapM_parse_error hmem herr
        rw [hmsg]
        exact ⟨msg, rfl⟩

theorem mapM_parse_ok {f : List (List Char) → Except (List Char) Chunk}
    {p : List (List Char) → Chunk} :
    ∀ {L : List (List (List Char))}, (∀ ch ∈ L, f ch = Except.ok (p ch)) →
      L.mapM f = Except.ok (L.map p)
  | [], _ => rfl
  | a :: L, h => by
    rw [List.mapM_cons, h a (List.mem_cons_self _ _),
      mapM_parse_ok (fun ch hch => h ch (List.mem_cons_of_mem _ hch))]
    rfl

/-! ## The specification claims -/

/-- C1 (count conservation): for every `n ≥ 1`, every positive flush
threshold and every corpus of token records, the sum of the counts in the
aggregate produced by counting, flushing and multi-pass merging (fan-in 100,
the source's `MAX_OPEN_FILES`) equals the total number of length-`n`
contiguous windows, `Σ_records max(L - n + 1, 0)` (the truncated `Nat`
subtraction `L + 1 - n` realises the `max` with 0); equivalently, each key's
aggregated count is its true number of occurrences across the corpus. -/
theorem C1_count_conservation (n thr : Nat) (_hn : 1 ≤ n) (hthr : 1 ≤ thr)
    (recs : List (List Gram)) :
    totalCount ((multi_pass_merge 100 (process_chunks thr n recs)).getD [])
      = (recs.map (fun r => r.length + 1 - n)).sum ∧
    ∀ g, sumCounts ((multi_pass_merge 100 (process_chunks thr n recs)).getD []) g
      = countOcc (allGrams n recs) g := by
  by_cases hnil : process_chunks thr n recs = []
  · have hgr : allGrams n recs = [] := (process_chunks_eq_nil_iff hthr recs).mp hnil
    have hlen := allGrams_length n recs
    rw [hgr] at hlen
    rw [hnil]
    constructor
    · rw [show multi_pass_merge 100 ([] : List Chunk) = none from rfl]
      simp only [Option.getD_none, totalCount_nil]
      rw [← hlen]
      rfl
    · intro g
      rw [show multi_pass_merge 100 ([] : List Chunk) = none from rfl]
      simp only [Option.getD_none, sumCounts_nil]
      rw [hgr, countOcc_nil]
  · obtain ⟨agg, heq, _, hsum, _, htot⟩ :=
      merged_aggregate_spec (m := 100) (by omega) hthr recs hnil
    rw [heq]
    simp only [Option.getD_some]
    exact ⟨by rw [htot, allGrams_length], hsum⟩

/-- Witness for C1 at the corpus `[["a", "b", "a"]]`, `n = 1`, threshold 1. -/
theorem C1_count_conservation_witness :
    (1 : Nat) ≤ 1 ∧
    totalCount ((multi_pass_merge 100 (process_chunks 1 1 [[['a'], ['b'], ['a']]])).getD [])
      = ([[['a'], ['b'], ['a']]].map (fun r => r.length + 1 - 1)).sum ∧
    sumCounts ((multi_pass_merge 100 (process_chunks 1 1 [[['a'], ['b'], ['a']]])).getD [])
        ['a']
      = countOcc (allGrams 1 [[['a'], ['b'], ['a']]]) ['a'] :=
  ⟨le_rfl, (C1_count_conservation 1 1 le_rfl le_rfl [[['a'], ['b'], ['a']]]).1,
    (C1_count_conservation 1 1 le_rfl le_rfl [[['a'], ['b'], ['a']]]).2 ['a']⟩

/-- C2, counterexample to "any positive max fan-in": with fan-in 1 and two
chunks the multi-pass loop makes no progress (a pass maps the chunk list to
one of the same length, third conjunct), so the source loops forever and
never produces an aggregate — modelled by fuel exhaustion (`none`, second
conjunct) — whereas fan-in 2 merges the same chunks into one aggregate
(first conjunct).  The results are not byte-identical. -/
theorem C2_fanin_one_counterexample :
    multi_pass_merge 2 [[(['a'], 1)], [(['b'], 1)]] = some [(['a'], 1), (['b'], 1)] ∧
    multi_pass_merge 1 [[(['a'], 1)], [(['b'], 1)]] = none ∧
    ((batches 1 [[(['a'], 1)], [(['b'], 1)]]).map merge_sorted_files).length = 2 := by
  refine ⟨?_, ?_, ?_⟩ <;> decide

/-- C2 amended (merge commutativity, fan-in ≥ 2): merging the same set of
strictly key-sorted chunk files in any order of the chunk list and under any
batch grouping with max fan-in ≥ 2 yields the same (hence byte-identical)
merged aggregate: one key-sorted file with, per distinct key, one line whose
count is the sum of that key's counts across all chunks.  (With fan-in 1 and
more than one chunk the source's merge loop never terminates, see the
counterexample.) -/
theorem C2_merge_commutativity (m1 m2 : Nat) (hm1 : 2 ≤ m1) (hm2 : 2 ≤ m2)
    (cs1 cs2 : List Chunk) (hperm : cs1.Perm cs2)
    (hs : ∀ c ∈ cs1, c.Sorted keyLT) :
    multi_pass_merge m1 cs1 = multi_pass_merge m2 cs2 ∧
    (∀ agg, multi_pass_merge m1 cs1 = some agg →
      agg.Sorted keyLT ∧
      (∀ g, sumCounts agg g = sumCounts cs1.flatten g) ∧
      (∀ g, g ∈ keysOf agg ↔ g ∈ keysOf cs1.flatten)) := by
  by_cases hnil : cs1 = []
  · subst hnil
    have h2 : cs2 = [] :=
      List.eq_nil_of_length_eq_zero (by rw [← hperm.length_eq]; rfl)
    subst h2
    refine ⟨rfl, fun agg h => ?_⟩
    exact Option.noConfusion h
  · have hne2 : cs2 ≠ [] := by
      intro h
      subst h
      exact hnil (List.eq_nil_of_length_eq_zero (by rw [hperm.length_eq]; rfl))
    obtain ⟨agg1, heq1, hsort1, hsum1, hkeys1, _⟩ := multi_pass_merge_spec hm1 hnil hs
    have hs2 : ∀ c ∈ cs2, c.Sorted keyLT := fun c hc => hs c (hperm.mem_iff.mpr hc)
    obtain ⟨agg2, heq2, hsort2, hsum2, hkeys2, _⟩ := multi_pass_merge_spec hm2 hne2 hs2
    have hfp : cs1.flatten.Perm cs2.flatten := hperm.flatten
    have heqagg : agg1 = agg2 :=
      agg_eq_of_sums agg1 agg2 hsort1 hsort2
        (fun g => by rw [hkeys1 g, hkeys2 g]; exact mem_keysOf_perm hfp g)
        (fun g => by rw [hsum1 g, hsum2 g]; exact sumCounts_perm hfp g)
    refine ⟨by rw [heq1, heq2, heqagg], fun agg h => ?_⟩
    rw [heq1] at h
    have : agg1 = agg := Option.some.inj h
    subst this
    exact ⟨hsort1, hsum1, hkeys1⟩

/-- Witness for C2 at two singleton chunks, permuted, fan-ins 2 and 3. -/
theorem C2_merge_commutativity_witness :
    multi_pass_merge 2 [[(['a'], 1)], [(['b'], 2)]]
      = multi_pass_merge 3 [[(['b'], 2)], [(['a'], 1)]] :=
  (C2_merge_commutativity 2 3 (by omega) (by omega)
    [[(['a'], 1)], [(['b'], 2)]] [[(['b'], 2)], [(['a'], 1)]]
    (by decide) (by decide)).1

/-- C3, counterexample to "a malformed line is skipped and the merge
continues": on a chunk set whose second chunk consists of the single
unparsable line `x` (no tab), the merge fails with an error carrying that
line — in the source, the uncaught `ValueError` from `rsplit` aborts the
merge — instead of completing with the aggregate `[("a", 1)]` of the
remaining valid records. -/
theorem C3_malformed_counterexample :
    merge_sorted_files_raw [[['a', '\t', '1']], [['x']]] = Except.error ['x'] ∧
    merge_sorted_files_raw [[['a', '\t', '1']], [['x']]] ≠ Except.ok [(['a'], 1)] := by
  refine ⟨rfl, fun h => ?_⟩
  have h0 : merge_sorted_files_raw [[['a', '\t', '1']], [['x']]]
      = Except.error ['x'] := rfl
  exact Except.noConfusion (h0.symm.trans h)

/-- C3 amended: during the k-way chunk merge, only blank lines are skipped
(silently); a malformed (unparsable) non-blank line in any chunk makes the
merge abort with an error rather than being skipped — the merge completes,
aggregating the records of all chunks, exactly when every non-blank line
parses. -/
theorem C3_merge_aborts_on_malformed (chunksRaw : List (List (List Char))) :
    ((∃ ch ∈ chunksRaw, ∃ ln ∈ ch, ¬ ln = [] ∧ parseLine ln = none) →
      ∃ msg, merge_sorted_files_raw chunksRaw = Except.error msg) ∧
    ((∀ ch ∈ chunksRaw, ∀ ln ∈ ch, ¬ ln = [] → (parseLine ln).isSome) →
      merge_sorted_files_raw chunksRaw
        = Except.ok (merge_sorted_files
            (chunksRaw.map (fun ch => ch.filterMap parseLine)))) := by
  constructor
  · intro ⟨ch, hch, hln⟩
    obtain ⟨msg, hmsg⟩ :=
      mapM_parse_error (f := parseChunkLines) hch (parseChunkLines_error hln)
    rw [merge_sorted_files_raw, hmsg]
    exact ⟨msg, rfl⟩
  · intro h
    have hok := mapM_parse_ok (f := parseChunkLines)
      (p := fun ch => ch.filterMap parseLine)
      (fun ch hch => parseChunkLines_ok (h ch hch))
    rw [merge_sorted_files_raw, hok]
    rfl

/-- Witness for C3: a malformed chunk set errors; a well-formed one merges. -/
theorem C3_merge_aborts_on_malformed_witness :
    (∃ msg, merge_sorted_files_raw [[['a', '\t', '1']], [['z']]] = Except.error msg) ∧
    merge_sorted_files_raw [[['a', '\t', '1']], [['b', '\t', '2']]]
      = Except.ok (merge_sorted_files
          ([[['a', '\t', '1']], [['b', '\t', '2']]].map
            (fun ch => ch.filterMap parseLine))) :=
  ⟨(C3_merge_aborts_on_malformed [[['a', '\t', '1']], [['z']]]).1 (by decide),
   (C3_merge_aborts_on_malformed [[['a', '\t', '1']], [['b', '\t', '2']]]).2 (by decide)⟩

/-- C4 (rotation correctness): for every frequency-sorted stream, min-count
and positive target byte size, (i) every output file is non-empty and within
the target size except possibly for its last line (so no file exceeds the
target by more than one line, and a lone oversized line gets a file of its
own); (ii) the files partition the min-count-filtered stream in order — no
line is split, duplicated or lost; (iii) a rotation happens only where the
next line would not have fit in the previous (already non-empty) file. -/
theorem C4_rotation_correctness (minC target : Nat) (_htarget : 1 ≤ target)
    (l : List Entry) :
    (∀ F ∈ export_sorted_to_outputs minC target l,
        F ≠ [] ∧ fileBytes F.dropLast ≤ target) ∧
    (export_sorted_to_outputs minC target l).flatten
        = l.filter (fun e => decide (minC ≤ e.2)) ∧
    List.Chain' (rotRel target) (export_sorted_to_outputs minC target l) :=
  exportGo_none_spec minC target l

/-- Witness for C4: target 5 bytes forces one line (4 bytes) per file. -/
theorem C4_rotation_correctness_witness :
    (export_sorted_to_outputs 1 5 [(['a'], 3), (['b'], 2)]).flatten
      = [(['a'], 3), (['b'], 2)].filter (fun e => decide (1 ≤ e.2)) :=
  (C4_rotation_correctness 1 5 (by omega) [(['a'], 3), (['b'], 2)]).2.1

/-- C5 (global ordering): for a merged aggregate with pairwise-distinct keys
(as the chunk merger guarantees), the concatenation, in ascending file-index
order, of all output files written by the exporter after the frequency sort
is strictly decreasing in the order "count descending, key ascending on
ties": any entry that comes later has a smaller count or an equal count and a
strictly larger key.  Within-file and across-file ordering follow, and the
sort-export composite is a pure function of the aggregate, so re-running it
reproduces the same output. -/
theorem C5_global_ordering (minC target limit : Nat) (agg : List Entry)
    (hk : (keysOf agg).Nodup) :
    ((export_sorted_to_outputs minC target
        (external_sort_agg_by_count limit agg)).flatten).Pairwise outLT := by
  obtain ⟨hperm, hsorted⟩ := external_sort_spec limit agg
  obtain ⟨_, hflat, _⟩ :=
    exportGo_none_spec minC target (external_sort_agg_by_count limit agg)
  rw [show export_sorted_to_outputs minC target (external_sort_agg_by_count limit agg)
      = exportGo minC target none (external_sort_agg_by_count limit agg) from rfl]
  rw [hflat]
  have hknd : (keysOf (external_sort_agg_by_count limit agg)).Nodup :=
    (hperm.map Prod.fst).nodup_iff.mpr hk
  have hne : (external_sort_agg_by_count limit agg).Pairwise
      (fun a b => a.1 ≠ b.1) := by
    rw [keysOf, List.Nodup, List.pairwise_map] at hknd
    exact hknd
  have hstrict : (external_sort_agg_by_count limit agg).Pairwise outLT := by
    refine (hsorted.and hne).imp ?_
    rintro a b ⟨hle, hne'⟩
    rcases hle with h | ⟨h1, h2⟩
    · exact Or.inl h
    · exact Or.inr ⟨h1, lt_of_le_of_ne h2 hne'⟩
  exact hstrict.sublist (List.filter_sublist _)

/-- Witness for C5 on a two-entry aggregate with a count tie. -/
theorem C5_global_ordering_witness :
    ((export_sorted_to_outputs 1 4 (external_sort_agg_by_count 1
        [(['b'], 2), (['a'], 2)])).flatten).Pairwise outLT :=
  C5_global_ordering 1 4 1 [(['b'], 2), (['a'], 2)] (by decide)

/-- C6 (threshold invariance): for any corpus and `n`, any two positive flush
thresholds and any two positive sort-window byte budgets make the pipeline
produce identical exported output files (hence in particular the same
(key, count) set); the thresholds only change the granularity of the
intermediate chunk and sort-chunk files. -/
theorem C6_threshold_invariance (n minC target thr1 thr2 limit1 limit2 : Nat)
    (h1 : 1 ≤ thr1) (h2 : 1 ≤ thr2) (_h3 : 1 ≤ limit1) (_h4 : 1 ≤ limit2)
    (recs : List (List Gram)) :
    pipelineFiles 100 thr1 limit1 minC target n recs
      = pipelineFiles 100 thr2 limit2 minC target n recs := by
  by_cases hnil : allGrams n recs = []
  · have e1 : process_chunks thr1 n recs = [] :=
      (process_chunks_eq_nil_iff h1 recs).mpr hnil
    have e2 : process_chunks thr2 n recs = [] :=
      (process_chunks_eq_nil_iff h2 recs).mpr hnil
    rw [pipelineFiles, pipelineFiles, e1, e2]
    rfl
  · have e1 : process_chunks thr1 n recs ≠ [] :=
      fun h => hnil ((process_chunks_eq_nil_iff h1 recs).mp h)
    have e2 : process_chunks thr2 n recs ≠ [] :=
      fun h => hnil ((process_chunks_eq_nil_iff h2 recs).mp h)
    obtain ⟨agg1, heq1, hsort1, hsum1, hkeys1, _⟩ :=
      merged_aggregate_spec (m := 100) (by omega) h1 recs e1
    obtain ⟨agg2, heq2, hsort2, hsum2, hkeys2, _⟩ :=
      merged_aggregate_spec (m := 100) (by omega) h2 recs e2
    have heqagg : agg1 = agg2 :=
      agg_eq_of_sums agg1 agg2 hsort1 hsort2
        (fun g => by rw [hkeys1 g, hkeys2 g])
        (fun g => by rw [hsum1 g, hsum2 g])
    rw [pipelineFiles, pipelineFiles, heq1, heq2]
    show export_sorted_to_outputs minC target (external_sort_agg_by_count limit1 agg1)
      = export_sorted_to_outputs minC target (external_sort_agg_by_count limit2 agg2)
    rw [heqagg, external_sort_window_invariant limit1 limit2 agg2]

/-- Witness for C6: thresholds (1, 1) versus (9, 7) on a small corpus. -/
theorem C6_threshold_invariance_witness :
    pipelineFiles 100 1 1 1 5 1 [[['a'], ['b'], ['a']]]
      = pipelineFiles 100 9 7 1 5 1 [[['a'], ['b'], ['a']]] :=
  C6_threshold_invariance 1 1 5 1 9 1 7 (by omega) (by omega) (by omega) (by omega)
    [[['a'], ['b'], ['a']]]

/-- C7, counterexample to "the n=2 output file is empty": on the scenario
corpus `["a","b","a","b","a"]` with `min_count = 3` (and the source's
constants for the other parameters), the pipeline creates **no** n=2 output
file at all — the exporter only opens a file for the first entry that passes
the filter, and none does — so the result is the empty file list, not a list
containing one empty file. -/
theorem C7_scenario_counterexample :
    pipelineFiles 100 52428800 209715200 3 52428800 2
        [[['a'], ['b'], ['a'], ['b'], ['a']]] = [] ∧
    pipelineFiles 100 52428800 209715200 3 52428800 2
        [[['a'], ['b'], ['a'], ['b'], ['a']]] ≠ [[]] := by
  refine ⟨by decide, by decide⟩

/-- C7 amended: for the corpus `[["a","b","a","b","a"]]` with `min_count = 3`
(threshold, window and target sizes as in the source), the n=2 pipeline
produces no output file (both 2-grams have count 2 < 3), and the n=1
pipeline produces exactly one output file containing the single line
`a TAB 3` (`b`, with count 2, is dropped by the filter). -/
theorem C7_scenario_min_count3 :
    pipelineFiles 100 52428800 209715200 3 52428800 2
        [[['a'], ['b'], ['a'], ['b'], ['a']]] = [] ∧
    pipelineFiles 100 52428800 209715200 3 52428800 1
        [[['a'], ['b'], ['a'], ['b'], ['a']]] = [[(['a'], 3)]] := by
  refine ⟨by decide, by decide⟩

/-- C8 (spill-counter flush contract): with a positive flush threshold, every
chunk written for an `n` — by a threshold-triggered flush or by the final
end-of-input flush — is non-empty, mentions each key at most once, and is
strictly ascending in the keys' code-point (equivalently UTF-8 byte) order;
and every counted occurrence reaches some chunk: the chunk counts for a key
sum to its true occurrence count (the final flush is performed exactly when
the remaining counter is non-empty, so nothing is lost and no empty chunk is
written). -/
theorem C8_flush_contract (n thr : Nat) (hthr : 1 ≤ thr)
    (recs : List (List Gram)) :
    (∀ c ∈ process_chunks thr n recs,
      c ≠ [] ∧ (keysOf c).Nodup ∧ (keysOf c).Sorted (· < ·)) ∧
    (∀ g, sumCounts (process_chunks thr n recs).flatten g
      = countOcc (allGrams n recs) g) := by
  obtain ⟨hw, hsum, _⟩ := process_chunks_spec thr n hthr recs
  refine ⟨?_, hsum⟩
  intro c hc
  obtain ⟨hsort, hne, _⟩ := hw c hc
  have hkeys : (keysOf c).Sorted (· < ·) := by
    rw [keysOf, List.Sorted, List.pairwise_map]
    exact hsort.imp (fun hh => hh)
  exact ⟨hne, hkeys.imp ne_of_lt, hkeys⟩

/-- Witness for C8 at a two-record corpus and threshold 1 (which forces a
threshold flush after each record). -/
theorem C8_flush_contract_witness :
    sumCounts (process_chunks 1 1 [[['b'], ['a']], [['a']]]).flatten ['a']
      = countOcc (allGrams 1 [[['b'], ['a']], [['a']]]) ['a'] :=
  (C8_flush_contract 1 1 le_rfl [[['b'], ['a']], [['a']]]).2 ['a']

/-- C9 (implicit exporter edge case): if no entry of the frequency-sorted
stream reaches the minimum count — in particular if the stream is empty —
the exporter creates no output file at all and returns the empty list; an
output file is only opened when the first entry passing the filter is
reached. -/
theorem C9_export_no_file (minC target : Nat) (l : List Entry)
    (h : ∀ e ∈ l, e.2 < minC) :
    export_sorted_to_outputs minC target l = [] :=
  exportGo_none_all_below minC target l h

/-- Witness for C9: all counts below the minimum, no file created. -/
theorem C9_export_no_file_witness :
    export_sorted_to_outputs 3 100 [(['a'], 2), (['b'], 1)] = [] :=
  C9_export_no_file 3 100 [(['a'], 2), (['b'], 1)] (by decide)

/-- C10 (single-chunk fast path refinement): whenever the sort produces
exactly one sort-chunk `w`, the fast path is taken and writes
`singleChunkOut w`, and the general k-way heap-merge path applied to the
same single chunk writes identical file content. -/
theorem C10_single_chunk_refinement (limit : Nat) (agg : List Entry)
    (w : List CEntry)
    (hw : (sortWindows limit agg).map (fun x => List.insertionSort freqLe x) = [w]) :
    external_sort_agg_by_count limit agg = singleChunkOut w ∧
    kMergeOut [w] = singleChunkOut w := by
  constructor
  · rw [external_sort_agg_by_count, hw]
  · exact kMergeOut_single w

/-- Witness for C10 on a one-entry aggregate with window budget 1. -/
theorem C10_single_chunk_refinement_witness :
    external_sort_agg_by_count 1 [(['a'], 1)] = singleChunkOut [(1, ['a'])] ∧
    kMergeOut [[(1, ['a'])]] = singleChunkOut [(1, ['a'])] :=
  C10_single_chunk_refinement 1 [(['a'], 1)] [(1, ['a'])] (by decide)
